import Mathlib

/-!
Scheduler policy of the Shadow simulator (`scheduler_policy.c`).

A shallow embedding of `src/main/core/scheduler/scheduler_policy.c`:
the per-thread host FIFOs, the host to event-queue map, and the operations
`schedulerpolicy_addHost`, `schedulerpolicy_getAssignedHosts`,
`schedulerpolicy_push`, `schedulerpolicy_pop`, `schedulerpolicy_nextHostEventTime`
and `schedulerpolicy_getNextTime`.

Conventions of the embedding.

* `Host*` and `pthread_t` are identities: natural numbers.
* A `GQueue*` of hosts is a `List Host` (head of the queue = head of the list).
* A `GHashTable*` is a function into `Option` (`none` = `g_hash_table_lookup`
  returns `NULL`); `g_hash_table_replace` is `Function.update`.
* `pthread_self()` is the explicit argument `self`.
* A failed `utility_alwaysAssert` / `utility_debugAssert` is the result `none`
  of the operation (the process aborts).
* Times are natural numbers. The sentinel `EMUTIME_INVALID` returned by the
  event queue is `none`, so that the test
  `eventTime != EMUTIME_INVALID && eventTime < barrierEmuTime` is a match on
  `some eventTime` followed by the comparison.
-/

namespace Shadow

abbrev SimulationTime := Nat
abbrev EmulatedTime := Nat
abbrev Host := Nat
abbrev Thread := Nat

/-- Modelled from the spec: the time constants `EMUTIME_SIMULATION_START` and
`SIMTIME_MAX` of `definitions.h` (collaborator TimeConstants), whose values are
not part of the sources at hand; they are parameters of the development. -/
structure TimeConstants where
  EMUTIME_SIMULATION_START : EmulatedTime
  SIMTIME_MAX : SimulationTime
deriving DecidableEq, Repr

/-- Modelled from the spec: `emu_add_sim`, with
`EmulatedTime = SIMULATION_START + VirtualTime`. -/
def emutime_add_simtime (lhs : EmulatedTime) (rhs : SimulationTime) : EmulatedTime :=
  lhs + rhs

/-- Modelled from the spec: `emu_sub_emu`, the simulation time between two
emulated times. -/
def emutime_sub_emutime (lhs rhs : EmulatedTime) : SimulationTime :=
  lhs - rhs

/-- Modelled from the spec: the collaborator Event, a scheduled unit of work
with a `time` and a payload (here a number identifying the event). -/
structure Event where
  time : SimulationTime
  payload : Nat
deriving DecidableEq, Repr

/-- Modelled from the spec: `event.time()`. -/
def event_getTime (event : Event) : SimulationTime := event.time

/-- Modelled from the spec: `event.set_time(VirtualTime)`. -/
def event_setTime (event : Event) (t : SimulationTime) : Event :=
  { event with time := t }

/-- Modelled from the spec: the per-host EventQueue of `event_queue`, which is
not part of the sources at hand. The pending events are kept in insertion
order; the priority order (ascending `time`, ties in insertion order) is
realised by `eventqueue_pop`. -/
abbrev ThreadSafeEventQueue := List Event

/-- Modelled from the spec: a fresh, empty EventQueue. -/
def eventqueue_new : ThreadSafeEventQueue := []

/-- Modelled from the spec: EventQueue `push(event)`: insert; never fails. -/
def eventqueue_push (q : ThreadSafeEventQueue) (event : Event) : ThreadSafeEventQueue :=
  q ++ [event]

/-- Modelled from the spec: EventQueue `pop()`: remove and return the earliest
event (ties broken by insertion order), or `none` if the queue is empty. -/
def eventqueue_pop : ThreadSafeEventQueue → Option Event × ThreadSafeEventQueue
  | [] => (none, [])
  | e :: q =>
    match eventqueue_pop q with
    | (none, _) => (some e, [])
    | (some m, q') => if e.time ≤ m.time then (some e, q) else (some m, e :: q')

/-- Modelled from the spec: the earliest pending event of an EventQueue (ties
broken by insertion order), looked at without removing it; `none` if the queue
is empty. -/
def eventqueue_peek : ThreadSafeEventQueue → Option Event
  | [] => none
  | e :: q =>
    match eventqueue_peek q with
    | none => some e
    | some m => if e.time ≤ m.time then some e else some m

/-- Modelled from the spec: EventQueue `next_event_time()`: peek the earliest
event's time without removing it, as an emulated time
(`SIMULATION_START + time`); `none` stands for `EMUTIME_INVALID`
(empty queue). -/
def eventqueue_nextEventTime (tc : TimeConstants) (q : ThreadSafeEventQueue) :
    Option EmulatedTime :=
  (eventqueue_peek q).map
    (fun e => emutime_add_simtime tc.EMUTIME_SIMULATION_START e.time)

/-- The struct `_HostSingleThreadData`. -/
structure HostSingleThreadData where
  allHosts : Option (List Host)
  unprocessedHosts : List Host
  processedHosts : List Host
  currentBarrier : SimulationTime
deriving DecidableEq, Repr

/-- The struct `_SchedulerPolicy`. -/
structure SchedulerPolicy where
  hostToQueueDataMap : Host → Option ThreadSafeEventQueue
  threadToThreadDataMap : Thread → Option HostSingleThreadData

/-- The function `_threaddata_new`: `g_new0` zeroes `allHosts` and
`currentBarrier`; both FIFOs are fresh and empty. -/
def _threaddata_new : HostSingleThreadData :=
  { allHosts := none, unprocessedHosts := [], processedHosts := [], currentBarrier := 0 }

/-- The function `schedulerpolicy_new`: both hash tables are empty. -/
def schedulerpolicy_new : SchedulerPolicy :=
  { hostToQueueDataMap := fun _ => none, threadToThreadDataMap := fun _ => none }

/-- The function `schedulerpolicy_addHost`. The result is `none` when
`utility_alwaysAssert(assignedThread != 0)` fails. -/
def schedulerpolicy_addHost (policy : SchedulerPolicy) (host : Host)
    (assignedThread : Thread) : Option SchedulerPolicy :=
  if assignedThread = 0 then none
  else
    let hostMap :=
      match policy.hostToQueueDataMap host with
      | none => Function.update policy.hostToQueueDataMap host (some eventqueue_new)
      | some _ => policy.hostToQueueDataMap
    let tdata :=
      match policy.threadToThreadDataMap assignedThread with
      | none => _threaddata_new
      | some tdata => tdata
    some
      { hostToQueueDataMap := hostMap
        threadToThreadDataMap :=
          Function.update policy.threadToThreadDataMap assignedThread
            (some { tdata with unprocessedHosts := tdata.unprocessedHosts ++ [host] }) }

/-- The callback `concat_queue_iter`: `g_queue_push_tail(userQueue, hostItem)`. -/
def concat_queue_iter (userQueue : List Host) (hostItem : Host) : List Host :=
  userQueue ++ [hostItem]

/-- The function `schedulerpolicy_getAssignedHosts`: the returned queue
(`none` = `NULL`) and the policy afterwards (the `allHosts` cache may change). -/
def schedulerpolicy_getAssignedHosts (policy : SchedulerPolicy) (self : Thread) :
    Option (List Host) × SchedulerPolicy :=
  match policy.threadToThreadDataMap self with
  | none => (none, policy)
  | some tdata =>
    if tdata.unprocessedHosts.isEmpty then (some tdata.processedHosts, policy)
    else if tdata.processedHosts.isEmpty then (some tdata.unprocessedHosts, policy)
    else
      let allHosts := tdata.unprocessedHosts.foldl concat_queue_iter tdata.processedHosts
      (some allHosts,
        { policy with
          threadToThreadDataMap :=
            Function.update policy.threadToThreadDataMap self
              (some { tdata with allHosts := some allHosts }) })

/-- The function `schedulerpolicy_push`: the returned event time and the policy
afterwards. The result is `none` when `utility_debugAssert(qdata)` fails, that
is when `dstHost` has no queue. -/
def schedulerpolicy_push (policy : SchedulerPolicy) (event : Event) (srcHost dstHost : Host)
    (barrier : SimulationTime) : Option (SimulationTime × SchedulerPolicy) :=
  let eventTime := event_getTime event
  let event :=
    if srcHost ≠ dstHost ∧ eventTime < barrier then event_setTime event barrier else event
  match policy.hostToQueueDataMap dstHost with
  | none => none
  | some qdata =>
    let eventTime := event_getTime event
    some (eventTime,
      { policy with
        hostToQueueDataMap :=
          Function.update policy.hostToQueueDataMap dstHost
            (some (eventqueue_push qdata event)) })

/-- The round-transition loop of `schedulerpolicy_pop`:
`while(!g_queue_is_empty(processedHosts))
   g_queue_push_tail(unprocessedHosts, g_queue_pop_head(processedHosts))`.
Returns the two FIFOs `(unprocessedHosts, processedHosts)` after the loop. -/
def drainProcessed : List Host → List Host → List Host × List Host
  | unprocessed, [] => (unprocessed, [])
  | unprocessed, host :: processed => drainProcessed (unprocessed ++ [host]) processed

/-- The `if(barrier > tdata->currentBarrier)` block of `schedulerpolicy_pop`. -/
def roundTransition (tdata : HostSingleThreadData) (barrier : SimulationTime) :
    HostSingleThreadData :=
  if barrier > tdata.currentBarrier then
    let tdata := { tdata with currentBarrier := barrier }
    if tdata.unprocessedHosts.isEmpty ∧ ¬ tdata.processedHosts.isEmpty then
      { tdata with
        unprocessedHosts := tdata.processedHosts
        processedHosts := tdata.unprocessedHosts }
    else
      let r := drainProcessed tdata.unprocessedHosts tdata.processedHosts
      { tdata with unprocessedHosts := r.1, processedHosts := r.2 }
  else tdata

/-- The result of the scan loop of `schedulerpolicy_pop`. -/
structure PopScan where
  event : Option Event
  hostMap : Host → Option ThreadSafeEventQueue
  unprocessed : List Host
  processed : List Host

/-- The scan loop `while(!g_queue_is_empty(tdata->unprocessedHosts))` of
`schedulerpolicy_pop`, by recursion on the unprocessed FIFO (every iteration
that does not return removes its head). The result is `none` when
`utility_debugAssert(qdata)` fails. -/
def popScan (tc : TimeConstants) (barrierEmuTime : EmulatedTime) :
    (Host → Option ThreadSafeEventQueue) → List Host → List Host → Option PopScan
  | hostMap, [], processed =>
    some { event := none, hostMap := hostMap, unprocessed := [], processed := processed }
  | hostMap, host :: rest, processed =>
    match hostMap host with
    | none => none
    | some qdata =>
      match eventqueue_nextEventTime tc qdata with
      | some eventTime =>
        if eventTime < barrierEmuTime then
          match eventqueue_pop qdata with
          | (some nextEvent, qdata') =>
            some
              { event := some nextEvent
                hostMap := Function.update hostMap host (some qdata')
                unprocessed := host :: rest
                processed := processed }
          | (none, qdata') =>
            popScan tc barrierEmuTime (Function.update hostMap host (some qdata')) rest
              (processed ++ [host])
        else popScan tc barrierEmuTime hostMap rest (processed ++ [host])
      | none => popScan tc barrierEmuTime hostMap rest (processed ++ [host])

/-- The function `schedulerpolicy_pop`: the returned event (`none` = `NULL`)
and the policy afterwards. The outer `none` is a failed
`utility_debugAssert(qdata)`. -/
def schedulerpolicy_pop (tc : TimeConstants) (policy : SchedulerPolicy) (self : Thread)
    (barrier : SimulationTime) : Option (Option Event × SchedulerPolicy) :=
  match policy.threadToThreadDataMap self with
  | none => some (none, policy)
  | some tdata =>
    let tdata := roundTransition tdata barrier
    let barrierEmuTime := emutime_add_simtime tc.EMUTIME_SIMULATION_START barrier
    match popScan tc barrierEmuTime policy.hostToQueueDataMap tdata.unprocessedHosts
        tdata.processedHosts with
    | none => none
    | some r =>
      some (r.event,
        { hostToQueueDataMap := r.hostMap
          threadToThreadDataMap :=
            Function.update policy.threadToThreadDataMap self
              (some { tdata with
                unprocessedHosts := r.unprocessed
                processedHosts := r.processed }) })

/-- The function `schedulerpolicy_nextHostEventTime`: the returned emulated time
(`none` = `EMUTIME_INVALID`) and the policy afterwards; the function only looks
up the queue and peeks it, it writes nothing, so the policy afterwards is the
one it was given. The outer `none` is a failed `utility_debugAssert(qdata)`. -/
def schedulerpolicy_nextHostEventTime (tc : TimeConstants) (policy : SchedulerPolicy)
    (host : Host) : Option (Option EmulatedTime × SchedulerPolicy) :=
  match policy.hostToQueueDataMap host with
  | none => none
  | some qdata => some (eventqueue_nextEventTime tc qdata, policy)

/-- The callback `_schedulerpolicy_findMinTime` on the field
`state->nextEventTime`; `none` is a failed `utility_debugAssert(qdata)`. -/
def _schedulerpolicy_findMinTime (tc : TimeConstants) (policy : SchedulerPolicy)
    (nextEventTime : SimulationTime) (host : Host) : Option SimulationTime :=
  match policy.hostToQueueDataMap host with
  | none => none
  | some qdata =>
    match eventqueue_nextEventTime tc qdata with
    | some t =>
      let nextEventSimTime := emutime_sub_emutime t tc.EMUTIME_SIMULATION_START
      some (min nextEventTime nextEventSimTime)
    | none => some nextEventTime

/-- The iteration `g_queue_foreach(queue, _schedulerpolicy_findMinTime, &searchState)`. -/
def findMinTimeForeach (tc : TimeConstants) (policy : SchedulerPolicy) :
    List Host → SimulationTime → Option SimulationTime
  | [], nextEventTime => some nextEventTime
  | host :: rest, nextEventTime =>
    match _schedulerpolicy_findMinTime tc policy nextEventTime host with
    | none => none
    | some t => findMinTimeForeach tc policy rest t

/-- The function `schedulerpolicy_getNextTime`. -/
def schedulerpolicy_getNextTime (tc : TimeConstants) (policy : SchedulerPolicy)
    (self : Thread) : Option SimulationTime :=
  match policy.threadToThreadDataMap self with
  | none => some tc.SIMTIME_MAX
  | some tdata =>
    match findMinTimeForeach tc policy tdata.unprocessedHosts tc.SIMTIME_MAX with
    | none => none
    | some t => findMinTimeForeach tc policy tdata.processedHosts t

/-! ## Executions: sequences of calls on a policy -/

/-- A call of the public interface made by the simulation loop. -/
inductive Call where
  | addHost (host : Host) (assignedThread : Thread)
  | push (event : Event) (srcHost dstHost : Host) (barrier : SimulationTime)
  | pop (self : Thread) (barrier : SimulationTime)
deriving DecidableEq, Repr

/-- The policy after one call; `none` when an assertion of the call fails. -/
def applyCall (tc : TimeConstants) (policy : SchedulerPolicy) : Call → Option SchedulerPolicy
  | .addHost host assignedThread => schedulerpolicy_addHost policy host assignedThread
  | .push event srcHost dstHost barrier =>
    (schedulerpolicy_push policy event srcHost dstHost barrier).map (fun r => r.2)
  | .pop self barrier => (schedulerpolicy_pop tc policy self barrier).map (fun r => r.2)

/-- The policy after a sequence of calls; `none` when an assertion fails on the way. -/
def applyCalls (tc : TimeConstants) : SchedulerPolicy → List Call → Option SchedulerPolicy
  | policy, [] => some policy
  | policy, c :: cs =>
    match applyCall tc policy c with
    | none => none
    | some policy' => applyCalls tc policy' cs

/-- The hosts passed to `add_host` for thread `t` in a sequence of calls, in call order. -/
def addedHosts (t : Thread) : List Call → List Host
  | [] => []
  | .addHost host assignedThread :: cs =>
    if assignedThread = t then host :: addedHosts t cs else addedHosts t cs
  | _ :: cs => addedHosts t cs

/-- The results of `n` successive calls `pop(barrier)` by thread `self`, and the
policy after them; `none` when an assertion fails. -/
def popRepeat (tc : TimeConstants) (self : Thread) (barrier : SimulationTime) :
    Nat → SchedulerPolicy → Option (List (Option Event) × SchedulerPolicy)
  | 0, policy => some ([], policy)
  | n + 1, policy =>
    match schedulerpolicy_pop tc policy self barrier with
    | none => none
    | some (ev, policy') =>
      match popRepeat tc self barrier n policy' with
      | none => none
      | some (evs, policy'') => some (ev :: evs, policy'')

/-- Host `host` is drained below `barrier`: it has a queue and no pending event
of it has a time below `barrier` (the queue is empty, or its earliest event has
time at least `barrier`). -/
def drainedBelow (hostMap : Host → Option ThreadSafeEventQueue) (host : Host)
    (barrier : SimulationTime) : Prop :=
  ∃ q, hostMap host = some q ∧ ∀ e ∈ q, barrier ≤ e.time

/-- The earliest pending event of `host` exists and has a time below `barrier`;
`m` is that event and `q'` the queue without it. -/
def earliestBelow (hostMap : Host → Option ThreadSafeEventQueue) (host : Host)
    (barrier : SimulationTime) (m : Event) (q' : ThreadSafeEventQueue) : Prop :=
  ∃ q, hostMap host = some q ∧ eventqueue_pop q = (some m, q') ∧ m.time < barrier

/-- The order `a` before `b` of the event queue: ascending time. -/
def timeLE (a b : Event) : Prop := a.time ≤ b.time

instance : DecidableRel timeLE := fun a b => inferInstanceAs (Decidable (a.time ≤ b.time))

instance : IsTotal Event timeLE := ⟨fun a b => Nat.le_total a.time b.time⟩

instance : IsTrans Event timeLE := ⟨fun _ _ _ h₁ h₂ => Nat.le_trans h₁ h₂⟩

/-- The pending events of a queue in ascending time order, ties in insertion
order (a stable sort of the queue). -/
def popOrder (q : ThreadSafeEventQueue) : List Event := q.insertionSort timeLE

/-- The pending events of `host` (none when the host has no queue). -/
def queueOf (hostMap : Host → Option ThreadSafeEventQueue) (host : Host) :
    ThreadSafeEventQueue :=
  (hostMap host).getD []

/-- Host after host in the given order, the pending events of each host in
ascending time order. -/
def drainOrder (hostMap : Host → Option ThreadSafeEventQueue) (hosts : List Host) :
    List Event :=
  hosts.flatMap (fun host => popOrder (queueOf hostMap host))

/-- The events returned by `n` successive runs of the scan loop of
`schedulerpolicy_pop`, each run starting from the queues and FIFOs left by the
previous one. -/
def scanRepeat (tc : TimeConstants) (barrierEmuTime : EmulatedTime) :
    Nat → (Host → Option ThreadSafeEventQueue) → List Host → List Host →
      Option (List (Option Event))
  | 0, _, _, _ => some []
  | n + 1, hostMap, u, p =>
    match popScan tc barrierEmuTime hostMap u p with
    | none => none
    | some r =>
      (scanRepeat tc barrierEmuTime n r.hostMap r.unprocessed r.processed).map
        (fun evs => r.event :: evs)

/-- The host served by the last pop of thread `self`: the head of its
`unprocessedHosts` (a pop that returns an event leaves the host it took the
event from at the head). -/
def servedHost (policy : SchedulerPolicy) (self : Thread) : Option Host :=
  (policy.threadToThreadDataMap self).bind (fun tdata => tdata.unprocessedHosts.head?)

/-- What happens to the queue of one host during an execution: an event is
stored with the given time, or an event is popped. -/
inductive QueueOp where
  | pushed (time : SimulationTime)
  | popped (event : Event)
deriving DecidableEq, Repr

/-- The operations on the queue of `host` during an execution from `policy`, in
order. The execution stops at the first failed assertion. -/
def queueOps (tc : TimeConstants) (host : Host) : SchedulerPolicy → List Call → List QueueOp
  | _, [] => []
  | policy, .addHost h assignedThread :: cs =>
    match schedulerpolicy_addHost policy h assignedThread with
    | none => []
    | some policy' => queueOps tc host policy' cs
  | policy, .push event srcHost dstHost barrier :: cs =>
    match schedulerpolicy_push policy event srcHost dstHost barrier with
    | none => []
    | some (t, policy') =>
      if dstHost = host then .pushed t :: queueOps tc host policy' cs
      else queueOps tc host policy' cs
  | policy, .pop self barrier :: cs =>
    match schedulerpolicy_pop tc policy self barrier with
    | none => []
    | some (none, policy') => queueOps tc host policy' cs
    | some (some e, policy') =>
      if servedHost policy' self = some host then .popped e :: queueOps tc host policy' cs
      else queueOps tc host policy' cs

/-- The events popped, in order. -/
def poppedEvents : List QueueOp → List Event
  | [] => []
  | .popped e :: ops => e :: poppedEvents ops
  | .pushed _ :: ops => poppedEvents ops

/-- No push stores an event with a time below `lb` or below the time of an
event popped earlier. -/
def noPushBehind : SimulationTime → List QueueOp → Prop
  | _, [] => True
  | lb, .pushed t :: ops => lb ≤ t ∧ noPushBehind lb ops
  | lb, .popped e :: ops => noPushBehind (max lb e.time) ops

instance decNoPushBehind :
    (lb : SimulationTime) → (ops : List QueueOp) → Decidable (noPushBehind lb ops)
  | _, [] => isTrue trivial
  | lb, .pushed t :: ops =>
    @instDecidableAnd (lb ≤ t) (noPushBehind lb ops) (Nat.decLe lb t) (decNoPushBehind lb ops)
  | lb, .popped e :: ops => decNoPushBehind (max lb e.time) ops

/-- The hosts of thread `t`, whichever partition they are in: `unprocessedHosts`
followed by `processedHosts` (no host when the thread has no ThreadState). -/
def threadHosts (policy : SchedulerPolicy) (t : Thread) : List Host :=
  match policy.threadToThreadDataMap t with
  | none => []
  | some tdata => tdata.unprocessedHosts ++ tdata.processedHosts

/-- Every event queued in every host of thread `t`. -/
def threadEvents (policy : SchedulerPolicy) (t : Thread) : List Event :=
  (threadHosts policy t).flatMap (queueOf policy.hostToQueueDataMap)

/-- The hosts passed to `add_host` in a sequence of calls, whatever the thread,
in call order. -/
def allAddedHosts : List Call → List Host
  | [] => []
  | .addHost host _ :: cs => host :: allAddedHosts cs
  | _ :: cs => allAddedHosts cs

/-- The round transition in the words of the spec: set `current_barrier` to the
new barrier and drain `processed` back into `unprocessed` by appending it,
which preserves the previously-processed order and leaves `processed` empty. -/
def roundTransitionSpec (tdata : HostSingleThreadData) (newBarrier : SimulationTime) :
    HostSingleThreadData :=
  { tdata with
    currentBarrier := newBarrier
    unprocessedHosts := tdata.unprocessedHosts ++ tdata.processedHosts
    processedHosts := [] }

/-- The round transition without the swap optimisation: the barrier update
followed by the element-by-element loop alone. -/
def roundTransitionLoop (tdata : HostSingleThreadData) (barrier : SimulationTime) :
    HostSingleThreadData :=
  if barrier > tdata.currentBarrier then
    let r := drainProcessed tdata.unprocessedHosts tdata.processedHosts
    { tdata with currentBarrier := barrier, unprocessedHosts := r.1, processedHosts := r.2 }
  else tdata

/-- The swap branch of the round transition alone: the barrier update followed
by the exchange of the two FIFOs. -/
def roundTransitionSwap (tdata : HostSingleThreadData) (barrier : SimulationTime) :
    HostSingleThreadData :=
  { tdata with
    currentBarrier := barrier
    unprocessedHosts := tdata.processedHosts
    processedHosts := tdata.unprocessedHosts }

/-- Whether a call is a push. -/
def Call.isPush : Call → Bool
  | .push _ _ _ _ => true
  | _ => false

/-- The `processedHosts` FIFO of thread `t` (empty without a ThreadState). -/
def processedOf (policy : SchedulerPolicy) (t : Thread) : List Host :=
  match policy.threadToThreadDataMap t with
  | none => []
  | some tdata => tdata.processedHosts

/-- The hosts that the call `pop(barrier)` of thread `self` moves from the head
of `unprocessedHosts` to `processedHosts`: what the scan loop appended to the
`processedHosts` left by the round-transition step. -/
def movedByPop (tc : TimeConstants) (policy : SchedulerPolicy) (self : Thread)
    (barrier : SimulationTime) : List Host :=
  match policy.threadToThreadDataMap self, schedulerpolicy_pop tc policy self barrier with
  | some tdata, some (_, policy') =>
    (processedOf policy' self).drop (roundTransition tdata barrier).processedHosts.length
  | _, _ => []

/-- The hosts moved from the head of `unprocessedHosts` to `processedHosts` by
the pops of thread `self` during an execution, one after the other. -/
def movedHosts (tc : TimeConstants) (self : Thread) : SchedulerPolicy → List Call → List Host
  | _, [] => []
  | policy, c :: cs =>
    match applyCall tc policy c with
    | none => []
    | some policy' =>
      (match c with
        | .pop s barrier => if s = self then movedByPop tc policy self barrier else []
        | _ => []) ++ movedHosts tc self policy' cs

/-- Whether the call `pop(barrier)` of thread `self` makes a round transition:
the thread has a ThreadState and `barrier > currentBarrier`. -/
def popTransitions (policy : SchedulerPolicy) (self : Thread) (barrier : SimulationTime) :
    Bool :=
  match policy.threadToThreadDataMap self with
  | none => false
  | some tdata => decide (barrier > tdata.currentBarrier)

/-- No pop of thread `self` makes a round transition during the execution. -/
def noRoundTransition (tc : TimeConstants) (self : Thread) :
    SchedulerPolicy → List Call → Bool
  | _, [] => true
  | policy, c :: cs =>
    (match c with
      | .pop s barrier => !(decide (s = self) && popTransitions policy s barrier)
      | _ => true) &&
    (match applyCall tc policy c with
      | none => true
      | some policy' => noRoundTransition tc self policy' cs)

/-- The service order of thread `t`: `processedHosts` followed by
`unprocessedHosts` (empty without a ThreadState). -/
def serviceOrder (policy : SchedulerPolicy) (t : Thread) : List Host :=
  match policy.threadToThreadDataMap t with
  | none => []
  | some tdata => tdata.processedHosts ++ tdata.unprocessedHosts

/-- The call `pop(barrier)` of thread `self` makes no round transition, or makes
it with `unprocessedHosts` empty (the previous round was finished), or with
`processedHosts` empty (nothing was processed yet, as at the first pop). -/
def cleanTransition (policy : SchedulerPolicy) (self : Thread) (barrier : SimulationTime) :
    Bool :=
  match policy.threadToThreadDataMap self with
  | none => true
  | some tdata =>
    !(decide (barrier > tdata.currentBarrier)) || tdata.unprocessedHosts.isEmpty ||
      tdata.processedHosts.isEmpty

/-- Every pop of thread `self` during the execution is a `cleanTransition`. -/
def disciplined (tc : TimeConstants) (self : Thread) : SchedulerPolicy → List Call → Bool
  | _, [] => true
  | policy, c :: cs =>
    (match c with
      | .pop s barrier => !(decide (s = self)) || cleanTransition policy s barrier
      | _ => true) &&
    (match applyCall tc policy c with
      | none => true
      | some policy' => disciplined tc self policy' cs)

/-! ## Concrete states used to exercise the theorems -/

/-- Time constants with `SIMULATION_START = 0`, as in the end-to-end scenarios. -/
def tcZero : TimeConstants := { EMUTIME_SIMULATION_START := 0, SIMTIME_MAX := 1000 }

/-- Time constants with a non-zero `SIMULATION_START`. -/
def tcEpoch : TimeConstants := { EMUTIME_SIMULATION_START := 946684800, SIMTIME_MAX := 1000000 }

/-- Thread 7 owns hosts 1 and 2 and is in a round with barrier 20; host 1 holds
two events, host 2 none. -/
def midRoundPolicy : SchedulerPolicy :=
  { hostToQueueDataMap := fun h =>
      if h = 1 then some [⟨4, 2⟩, ⟨3, 1⟩] else if h = 2 then some [] else none
    threadToThreadDataMap := fun t =>
      if t = 7 then
        some { allHosts := none, unprocessedHosts := [1, 2], processedHosts := [],
               currentBarrier := 20 }
      else none }

/-- The execution `add_host(1, T7); pop(10); push(e@3, 1, 1, 0)`: host 1 is in
`processed` of the round with barrier 10 and then receives an event at time 3. -/
def staleProcessedCalls : List Call :=
  [.addHost 1 7, .pop 7 10, .push ⟨3, 1⟩ 1 1 0]

/-- The policy state after `staleProcessedCalls`. -/
def staleProcessedPolicy : SchedulerPolicy :=
  (applyCalls tcZero schedulerpolicy_new staleProcessedCalls).getD schedulerpolicy_new

/-- The execution `add_host(1, T7); add_host(2, T7); push(e@5, 1, 1, 0);
push(e@3, 2, 2, 0)`: the first host holds the later event. -/
def crossOrderCalls : List Call :=
  [.addHost 1 7, .addHost 2 7, .push ⟨5, 1⟩ 1 1 0, .push ⟨3, 2⟩ 2 2 0]

/-- The policy state after `crossOrderCalls`. -/
def crossOrderPolicy : SchedulerPolicy :=
  (applyCalls tcZero schedulerpolicy_new crossOrderCalls).getD schedulerpolicy_new

/-- The execution `add_host(1, T7); push(e@5, 1, 1, 0); pop(10);
push(e@3, 1, 1, 0); pop(10)`: host 1 receives an earlier event after its first
event was popped. -/
def latePushCalls : List Call :=
  [.addHost 1 7, .push ⟨5, 1⟩ 1 1 0, .pop 7 10, .push ⟨3, 2⟩ 1 1 0, .pop 7 10]

/-- The execution `add_host(1, T7); push(e@5, 1, 1, 0); push(e@3, 1, 1, 0);
pop(10); push(e@4, 1, 1, 0); pop(10); pop(10)`. -/
def orderedPushCalls : List Call :=
  [.addHost 1 7, .push ⟨5, 1⟩ 1 1 0, .push ⟨3, 2⟩ 1 1 0, .pop 7 10, .push ⟨4, 3⟩ 1 1 0,
    .pop 7 10, .pop 7 10]

/-- The execution `add_host(1, T7); add_host(2, T7); add_host(3, T8);
push(e@1, 2, 2, 0); pop(5)` by thread 7: host 1 is moved to `processed`, host 2
stays at the head of `unprocessed`. -/
def partitionCalls : List Call :=
  [.addHost 1 7, .addHost 2 7, .addHost 3 8, .push ⟨1, 1⟩ 2 2 0, .pop 7 5]

/-- The policy state after `partitionCalls`. -/
def partitionPolicy : SchedulerPolicy :=
  (applyCalls tcZero schedulerpolicy_new partitionCalls).getD schedulerpolicy_new

/-- Thread 7 owns hosts 1, 2 and 3 in this order, all in `unprocessed`, with
barrier 0; host 1 has no event, host 2 holds events at 6 and 1, host 3 an event
at 2. -/
def skipFirstPolicy : SchedulerPolicy :=
  { hostToQueueDataMap := fun h =>
      if h = 1 then some [] else if h = 2 then some [⟨6, 1⟩, ⟨1, 2⟩]
      else if h = 3 then some [⟨2, 3⟩] else none
    threadToThreadDataMap := fun t =>
      if t = 7 then
        some { allHosts := none, unprocessedHosts := [1, 2, 3], processedHosts := [],
               currentBarrier := 0 }
      else none }

/-- The policy state after `add_host(1, T7)`. -/
def oneHostPolicy : SchedulerPolicy :=
  (applyCalls tcZero schedulerpolicy_new [.addHost 1 7]).getD schedulerpolicy_new

/-- The policy state after `add_host(1, T7); pop(10)`. -/
def oneHostAfterPop : SchedulerPolicy :=
  ((schedulerpolicy_pop tcZero oneHostPolicy 7 10).getD (none, oneHostPolicy)).2

/-- The policy state after `add_host(1, T7); pop(10); push(e@3, 1, 1, 0)`. -/
def oneHostAfterPush : SchedulerPolicy :=
  (applyCalls tcZero oneHostAfterPop [.push ⟨3, 1⟩ 1 1 0]).getD oneHostAfterPop

/-- The start of a round of thread 7: `add_host(1, T7); add_host(2, T7);
add_host(3, T7); push(e@1, 2, 2, 0)`. -/
def roundStartCalls : List Call :=
  [.addHost 1 7, .addHost 2 7, .addHost 3 7, .push ⟨1, 1⟩ 2 2 0]

/-- The policy state after `roundStartCalls`. -/
def roundStartPolicy : SchedulerPolicy :=
  (applyCalls tcZero schedulerpolicy_new roundStartCalls).getD schedulerpolicy_new

/-- The policy state after `roundStartCalls` and the call `pop(5)` of thread 7
that opens the round with barrier 5. -/
def roundOpenedPolicy : SchedulerPolicy :=
  (applyCall tcZero roundStartPolicy (.pop 7 5)).getD roundStartPolicy

/-- The rest of the round with barrier 5: `pop(5); push(e@2, 1, 1, 0); pop(5)`. -/
def roundRestCalls : List Call :=
  [.pop 7 5, .push ⟨2, 2⟩ 1 1 0, .pop 7 5]

/-- The policy state at the end of the round. -/
def roundEndPolicy : SchedulerPolicy :=
  (applyCalls tcZero roundOpenedPolicy roundRestCalls).getD roundOpenedPolicy

/-- Two rounds of thread 7 over hosts 1 and 2, the barrier raised from 5 to 10
only after `pop(5)` returned no event. -/
def twoRoundCalls : List Call :=
  [.addHost 1 7, .addHost 2 7, .push ⟨1, 1⟩ 2 2 0, .pop 7 5, .pop 7 5, .push ⟨7, 2⟩ 1 1 5,
    .pop 7 10, .pop 7 10]

/-- The policy state after `twoRoundCalls`. -/
def twoRoundPolicy : SchedulerPolicy :=
  (applyCalls tcZero schedulerpolicy_new twoRoundCalls).getD schedulerpolicy_new

/-! ## The event queue -/

theorem eventqueue_pop_fst_eq_none (q : ThreadSafeEventQueue) :
    (eventqueue_pop q).1 = none ↔ q = [] := by
  cases q with
  | nil => simp [eventqueue_pop]
  | cons e q =>
    simp only [eventqueue_pop]
    rcases h : eventqueue_pop q with ⟨_ | m, q'⟩
    · simp
    · by_cases hle : e.time ≤ m.time <;> simp [hle]

theorem eventqueue_pop_some {q q' : ThreadSafeEventQueue} {m : Event}
    (h : eventqueue_pop q = (some m, q')) :
    (∀ e ∈ q, m.time ≤ e.time) ∧ q.Perm (m :: q') := by
  induction q generalizing m q' with
  | nil => simp [eventqueue_pop] at h
  | cons e q ih =>
    simp only [eventqueue_pop] at h
    rcases hq : eventqueue_pop q with ⟨_ | m', q''⟩
    · have hnil : q = [] := (eventqueue_pop_fst_eq_none q).1 (by rw [hq])
      rw [hq] at h
      simp only [Prod.mk.injEq, Option.some.injEq] at h
      obtain ⟨rfl, rfl⟩ := h
      subst hnil
      simp
    · rw [hq] at h
      obtain ⟨hmin, hperm⟩ := ih hq
      by_cases hle : e.time ≤ m'.time
      · simp only [hle, if_true, Prod.mk.injEq, Option.some.injEq] at h
        obtain ⟨rfl, rfl⟩ := h
        refine ⟨?_, List.Perm.refl _⟩
        intro x hx
        rcases List.mem_cons.1 hx with rfl | hx
        · exact le_rfl
        · exact le_trans hle (hmin x hx)
      · simp only [hle, if_false, Prod.mk.injEq, Option.some.injEq] at h
        obtain ⟨rfl, rfl⟩ := h
        refine ⟨?_, ?_⟩
        · intro x hx
          rcases List.mem_cons.1 hx with rfl | hx
          · exact le_of_lt (not_le.1 hle)
          · exact hmin x hx
        · exact (List.Perm.cons e hperm).trans (List.Perm.swap _ _ _)

theorem eventqueue_pop_none {q q' : ThreadSafeEventQueue}
    (h : eventqueue_pop q = (none, q')) : q = [] ∧ q' = [] := by
  have hq : q = [] := (eventqueue_pop_fst_eq_none q).1 (by rw [h])
  subst hq
  simp [eventqueue_pop] at h
  exact ⟨rfl, h⟩

/-- The event a peek shows is the event the next pop returns. -/
theorem eventqueue_peek_eq_pop (q : ThreadSafeEventQueue) :
    eventqueue_peek q = (eventqueue_pop q).1 := by
  induction q with
  | nil => rfl
  | cons e q ih =>
    simp only [eventqueue_peek, eventqueue_pop, ih]
    rcases eventqueue_pop q with ⟨_ | m, q'⟩
    · rfl
    · by_cases hle : e.time ≤ m.time <;> simp [hle]

theorem eventqueue_nextEventTime_eq_none (tc : TimeConstants) (q : ThreadSafeEventQueue) :
    eventqueue_nextEventTime tc q = none ↔ q = [] := by
  simp [eventqueue_nextEventTime, eventqueue_peek_eq_pop, eventqueue_pop_fst_eq_none]

theorem eventqueue_nextEventTime_of_pop (tc : TimeConstants) {q q' : ThreadSafeEventQueue}
    {m : Event} (h : eventqueue_pop q = (some m, q')) :
    eventqueue_nextEventTime tc q = some (tc.EMUTIME_SIMULATION_START + m.time) := by
  simp [eventqueue_nextEventTime, eventqueue_peek_eq_pop, h, emutime_add_simtime]

/-! ## The scan loop of `schedulerpolicy_pop` -/

theorem popScan_event_lt (tc : TimeConstants) (barrierEmuTime : EmulatedTime)
    (u : List Host) :
    ∀ (hostMap : Host → Option ThreadSafeEventQueue) (p : List Host) (r : PopScan) (e : Event),
      popScan tc barrierEmuTime hostMap u p = some r → r.event = some e →
      tc.EMUTIME_SIMULATION_START + e.time < barrierEmuTime := by
  induction u with
  | nil =>
    intro hostMap p r e h he
    simp only [popScan, Option.some.injEq] at h
    subst h
    simp at he
  | cons host rest ih =>
    intro hostMap p r e h he
    simp only [popScan] at h
    rcases hq : hostMap host with _ | qdata
    · simp [hq] at h
    · rw [hq] at h
      simp only at h
      rcases ht : eventqueue_nextEventTime tc qdata with _ | eventTime
      · rw [ht] at h
        exact ih _ _ _ _ h he
      · rw [ht] at h
        simp only at h
        by_cases hlt : eventTime < barrierEmuTime
        · simp only [hlt, if_true] at h
          rcases hp : eventqueue_pop qdata with ⟨_ | m, q'⟩
          · rw [hp] at h
            exact ih _ _ _ _ h he
          · rw [hp] at h
            simp only [Option.some.injEq] at h
            subst h
            simp only [Option.some.injEq] at he
            subst he
            rw [eventqueue_nextEventTime_of_pop tc hp] at ht
            simp only [Option.some.injEq] at ht
            rw [ht]; exact hlt
        · simp only [hlt, if_false] at h
          exact ih _ _ _ _ h he

theorem drainedBelow_iff_earliest (hostMap : Host → Option ThreadSafeEventQueue) (host : Host)
    (barrier : SimulationTime) :
    drainedBelow hostMap host barrier ↔
      ∃ q, hostMap host = some q ∧
        (q = [] ∨ ∃ m q', eventqueue_pop q = (some m, q') ∧ barrier ≤ m.time) := by
  constructor
  · rintro ⟨q, hq, hall⟩
    refine ⟨q, hq, ?_⟩
    rcases hp : eventqueue_pop q with ⟨_ | m, q'⟩
    · exact Or.inl (eventqueue_pop_none hp).1
    · refine Or.inr ⟨m, q', rfl, hall m ?_⟩
      exact (eventqueue_pop_some hp).2.symm.subset (List.mem_cons_self _ _)
  · rintro ⟨q, hq, hcase⟩
    refine ⟨q, hq, ?_⟩
    rcases hcase with rfl | ⟨m, q', hp, hm⟩
    · simp
    · intro e he
      exact le_trans hm ((eventqueue_pop_some hp).1 e he)

theorem drainedBelow_or_earliestBelow {hostMap : Host → Option ThreadSafeEventQueue}
    {host : Host} {q : ThreadSafeEventQueue} (barrier : SimulationTime)
    (hq : hostMap host = some q) :
    drainedBelow hostMap host barrier ∨ ∃ m q', earliestBelow hostMap host barrier m q' := by
  rcases hp : eventqueue_pop q with ⟨_ | m, q'⟩
  · left
    refine ⟨q, hq, ?_⟩
    rw [(eventqueue_pop_none hp).1]
    simp
  · by_cases hlt : m.time < barrier
    · exact Or.inr ⟨m, q', q, hq, hp, hlt⟩
    · left
      refine ⟨q, hq, fun e he => ?_⟩
      exact le_trans (not_lt.1 hlt) ((eventqueue_pop_some hp).1 e he)

theorem not_drainedBelow_of_earliestBelow {hostMap : Host → Option ThreadSafeEventQueue}
    {host : Host} {barrier : SimulationTime} {m : Event} {q' : ThreadSafeEventQueue}
    (h : earliestBelow hostMap host barrier m q') : ¬ drainedBelow hostMap host barrier := by
  rintro ⟨q, hq, hall⟩
  obtain ⟨q₂, hq₂, hp, hlt⟩ := h
  rw [hq] at hq₂
  simp only [Option.some.injEq] at hq₂
  subst hq₂
  have hm : m ∈ q := (eventqueue_pop_some hp).2.symm.subset (List.mem_cons_self _ _)
  exact absurd hlt (not_lt.2 (hall m hm))

/-- One iteration of the scan loop on a drained host: it moves to the tail of
`processed` and the scan goes on. -/
theorem popScan_skip (tc : TimeConstants) (barrier : SimulationTime)
    (hostMap : Host → Option ThreadSafeEventQueue) (host : Host) (rest p : List Host)
    (h : drainedBelow hostMap host barrier) :
    popScan tc (emutime_add_simtime tc.EMUTIME_SIMULATION_START barrier) hostMap
        (host :: rest) p =
      popScan tc (emutime_add_simtime tc.EMUTIME_SIMULATION_START barrier) hostMap rest
        (p ++ [host]) := by
  obtain ⟨q, hq, hall⟩ := h
  rw [popScan, hq]
  simp only
  rcases hp : eventqueue_pop q with ⟨_ | m, q'⟩
  · have hn : eventqueue_nextEventTime tc q = none := by
      simp [eventqueue_nextEventTime, eventqueue_peek_eq_pop, hp]
    rw [hn]
  · rw [eventqueue_nextEventTime_of_pop tc hp]
    have hm : m ∈ q := (eventqueue_pop_some hp).2.symm.subset (List.mem_cons_self _ _)
    have hge : barrier ≤ m.time := hall m hm
    have hnlt : ¬ (tc.EMUTIME_SIMULATION_START + m.time <
        emutime_add_simtime tc.EMUTIME_SIMULATION_START barrier) := by
      simp only [emutime_add_simtime, not_lt]
      exact Nat.add_le_add_left hge _
    simp only [hnlt, if_false]

/-- One iteration of the scan loop on a host with an event below the barrier:
the earliest event is popped and returned, the host stays at the head. -/
theorem popScan_hit (tc : TimeConstants) (barrier : SimulationTime)
    (hostMap : Host → Option ThreadSafeEventQueue) (host : Host) (rest p : List Host)
    (m : Event) (q' : ThreadSafeEventQueue) (h : earliestBelow hostMap host barrier m q') :
    popScan tc (emutime_add_simtime tc.EMUTIME_SIMULATION_START barrier) hostMap
        (host :: rest) p =
      some { event := some m, hostMap := Function.update hostMap host (some q'),
             unprocessed := host :: rest, processed := p } := by
  obtain ⟨q, hq, hp, hlt⟩ := h
  rw [popScan, hq]
  simp only
  rw [eventqueue_nextEventTime_of_pop tc hp]
  have hlt' : tc.EMUTIME_SIMULATION_START + m.time <
      emutime_add_simtime tc.EMUTIME_SIMULATION_START barrier := by
    simp only [emutime_add_simtime]
    exact Nat.add_lt_add_left hlt _
  simp only [hlt', if_true, hp]

/-- The scan over hosts that are all drained below the barrier returns no event,
leaves the queues alone and moves every host, in order, to `processed`. -/
theorem popScan_all_drained (tc : TimeConstants) (barrier : SimulationTime)
    (hostMap : Host → Option ThreadSafeEventQueue) (u : List Host) :
    ∀ (p : List Host), (∀ host ∈ u, drainedBelow hostMap host barrier) →
      popScan tc (emutime_add_simtime tc.EMUTIME_SIMULATION_START barrier) hostMap u p =
        some { event := none, hostMap := hostMap, unprocessed := [], processed := p ++ u } := by
  induction u with
  | nil => intro p _; simp [popScan]
  | cons host rest ih =>
    intro p h
    rw [popScan_skip tc barrier hostMap host rest p (h host (List.mem_cons_self _ _)),
      ih (p ++ [host]) (fun x hx => h x (List.mem_cons_of_mem _ hx))]
    simp

/-- The scan over drained hosts `pre` followed by a host with an event below the
barrier returns the earliest event of that host. -/
theorem popScan_first_hit (tc : TimeConstants) (barrier : SimulationTime)
    (hostMap : Host → Option ThreadSafeEventQueue) (pre : List Host) :
    ∀ (p : List Host) (host : Host) (rest : List Host) (m : Event)
      (q' : ThreadSafeEventQueue),
      (∀ x ∈ pre, drainedBelow hostMap x barrier) →
      earliestBelow hostMap host barrier m q' →
      popScan tc (emutime_add_simtime tc.EMUTIME_SIMULATION_START barrier) hostMap
          (pre ++ host :: rest) p =
        some { event := some m, hostMap := Function.update hostMap host (some q'),
               unprocessed := host :: rest, processed := p ++ pre } := by
  induction pre with
  | nil =>
    intro p host rest m q' _ h
    simpa using popScan_hit tc barrier hostMap host rest p m q' h
  | cons x pre ih =>
    intro p host rest m q' hpre h
    rw [List.cons_append,
      popScan_skip tc barrier hostMap x _ p (hpre x (List.mem_cons_self _ _)),
      ih (p ++ [x]) host rest m q' (fun y hy => hpre y (List.mem_cons_of_mem _ hy)) h]
    simp

/-- A scan that returns no event found every scanned host drained. -/
theorem popScan_none_drained (tc : TimeConstants) (barrier : SimulationTime)
    (hostMap : Host → Option ThreadSafeEventQueue) (u : List Host) :
    ∀ (p : List Host) (r : PopScan),
      popScan tc (emutime_add_simtime tc.EMUTIME_SIMULATION_START barrier) hostMap u p =
        some r →
      r.event = none → ∀ host ∈ u, drainedBelow hostMap host barrier := by
  induction u with
  | nil => intro p r _ _ host hh; simp at hh
  | cons x rest ih =>
    intro p r h he
    rcases hq : hostMap x with _ | q
    · simp [popScan, hq] at h
    · rcases drainedBelow_or_earliestBelow barrier hq with hd | ⟨m, q', hb⟩
      · rw [popScan_skip tc barrier hostMap x rest p hd] at h
        intro host hh
        rcases List.mem_cons.1 hh with rfl | hh
        · exact hd
        · exact ih _ r h he host hh
      · rw [popScan_hit tc barrier hostMap x rest p m q' hb] at h
        simp only [Option.some.injEq] at h
        subst h
        simp at he

/-- Every scan that completes is of one of two kinds: no event and all hosts
drained, or the earliest event of the first host that has one below the barrier. -/
theorem popScan_cases (tc : TimeConstants) (barrier : SimulationTime)
    (hostMap : Host → Option ThreadSafeEventQueue) (u : List Host) :
    ∀ (p : List Host) (r : PopScan),
      popScan tc (emutime_add_simtime tc.EMUTIME_SIMULATION_START barrier) hostMap u p =
        some r →
      ((∀ host ∈ u, drainedBelow hostMap host barrier) ∧
        r = { event := none, hostMap := hostMap, unprocessed := [], processed := p ++ u }) ∨
      (∃ pre host rest m q', u = pre ++ host :: rest ∧
        (∀ x ∈ pre, drainedBelow hostMap x barrier) ∧
        earliestBelow hostMap host barrier m q' ∧
        r = { event := some m, hostMap := Function.update hostMap host (some q'),
              unprocessed := host :: rest, processed := p ++ pre }) := by
  induction u with
  | nil =>
    intro p r h
    left
    simp only [popScan, Option.some.injEq] at h
    subst h
    simp
  | cons x rest ih =>
    intro p r h
    rcases hq : hostMap x with _ | q
    · simp [popScan, hq] at h
    · rcases drainedBelow_or_earliestBelow barrier hq with hd | ⟨m, q', hb⟩
      · rw [popScan_skip tc barrier hostMap x rest p hd] at h
        rcases ih _ r h with ⟨hall, hr⟩ | ⟨pre, host, rest', m, q', hu, hpre, hb, hr⟩
        · left
          refine ⟨?_, ?_⟩
          · intro host hh
            rcases List.mem_cons.1 hh with rfl | hh
            · exact hd
            · exact hall host hh
          · rw [hr]; simp
        · right
          refine ⟨x :: pre, host, rest', m, q', by rw [hu]; simp, ?_, hb, ?_⟩
          · intro y hy
            rcases List.mem_cons.1 hy with rfl | hy
            · exact hd
            · exact hpre y hy
          · rw [hr]; simp
      · right
        rw [popScan_hit tc barrier hostMap x rest p m q' hb] at h
        simp only [Option.some.injEq] at h
        exact ⟨[], x, rest, m, q', rfl, by simp, hb, by rw [← h]; simp⟩

/-! ## The round transition -/

theorem drainProcessed_eq (p : List Host) :
    ∀ u : List Host, drainProcessed u p = (u ++ p, []) := by
  induction p with
  | nil => intro u; simp [drainProcessed]
  | cons x p ih => intro u; simp [drainProcessed, ih]

theorem roundTransition_of_lt (tdata : HostSingleThreadData) (barrier : SimulationTime)
    (h : tdata.currentBarrier < barrier) :
    roundTransition tdata barrier =
      { tdata with
        currentBarrier := barrier
        unprocessedHosts := tdata.unprocessedHosts ++ tdata.processedHosts
        processedHosts := [] } := by
  unfold roundTransition
  simp only [gt_iff_lt, h, if_true, drainProcessed_eq]
  by_cases hc : tdata.unprocessedHosts.isEmpty = true ∧ ¬ tdata.processedHosts.isEmpty = true
  · rw [if_pos hc]
    have hu : tdata.unprocessedHosts = [] := List.isEmpty_iff.1 hc.1
    simp [hu]
  · rw [if_neg hc]

theorem roundTransition_of_le (tdata : HostSingleThreadData) (barrier : SimulationTime)
    (h : barrier ≤ tdata.currentBarrier) : roundTransition tdata barrier = tdata := by
  unfold roundTransition
  simp [not_lt.2 h]

theorem roundTransition_fifos (tdata : HostSingleThreadData) (barrier : SimulationTime) :
    ((roundTransition tdata barrier).unprocessedHosts ++
        (roundTransition tdata barrier).processedHosts).Perm
      (tdata.unprocessedHosts ++ tdata.processedHosts) := by
  by_cases h : tdata.currentBarrier < barrier
  · rw [roundTransition_of_lt tdata barrier h]; simp
  · rw [roundTransition_of_le tdata barrier (not_lt.1 h)]

theorem le_currentBarrier_roundTransition (tdata : HostSingleThreadData)
    (barrier : SimulationTime) : barrier ≤ (roundTransition tdata barrier).currentBarrier := by
  by_cases h : tdata.currentBarrier < barrier
  · rw [roundTransition_of_lt tdata barrier h]
  · rw [roundTransition_of_le tdata barrier (not_lt.1 h)]; exact not_lt.1 h

theorem schedulerpolicy_pop_of_tdata (tc : TimeConstants) (policy : SchedulerPolicy)
    (self : Thread) (barrier : SimulationTime) (tdata : HostSingleThreadData)
    (ht : policy.threadToThreadDataMap self = some tdata) :
    schedulerpolicy_pop tc policy self barrier =
      (popScan tc (emutime_add_simtime tc.EMUTIME_SIMULATION_START barrier)
          policy.hostToQueueDataMap (roundTransition tdata barrier).unprocessedHosts
          (roundTransition tdata barrier).processedHosts).map
        (fun r =>
          (r.event,
            { hostToQueueDataMap := r.hostMap
              threadToThreadDataMap :=
                Function.update policy.threadToThreadDataMap self
                  (some { roundTransition tdata barrier with
                    unprocessedHosts := r.unprocessed
                    processedHosts := r.processed }) })) := by
  unfold schedulerpolicy_pop
  rw [ht]
  simp only
  rcases popScan tc (emutime_add_simtime tc.EMUTIME_SIMULATION_START barrier)
      policy.hostToQueueDataMap (roundTransition tdata barrier).unprocessedHosts
      (roundTransition tdata barrier).processedHosts with _ | r <;> rfl

/-! ## Repeated pops -/

theorem popOrder_of_pop {q q' : ThreadSafeEventQueue} {m : Event}
    (h : eventqueue_pop q = (some m, q')) : popOrder q = m :: popOrder q' := by
  induction q generalizing m q' with
  | nil => simp [eventqueue_pop] at h
  | cons e l ih =>
    simp only [eventqueue_pop] at h
    rcases hl : eventqueue_pop l with ⟨_ | m', l'⟩
    · rw [hl] at h
      simp only [Prod.mk.injEq, Option.some.injEq] at h
      obtain ⟨rfl, rfl⟩ := h
      rw [(eventqueue_pop_none hl).1]
      simp [popOrder]
    · rw [hl] at h
      have ihl : popOrder l = m' :: popOrder l' := ih hl
      unfold popOrder at ihl ⊢
      by_cases hle : e.time ≤ m'.time
      · simp only [hle, if_true, Prod.mk.injEq, Option.some.injEq] at h
        obtain ⟨rfl, rfl⟩ := h
        rw [List.insertionSort, ihl, List.orderedInsert, if_pos (show timeLE e m' from hle)]
      · simp only [hle, if_false, Prod.mk.injEq, Option.some.injEq] at h
        obtain ⟨rfl, rfl⟩ := h
        rw [List.insertionSort, ihl, List.orderedInsert,
          if_neg (show ¬ timeLE e m' from hle), List.insertionSort]

theorem popOrder_perm (q : ThreadSafeEventQueue) : (popOrder q).Perm q :=
  List.perm_insertionSort timeLE q

theorem popOrder_sorted (q : ThreadSafeEventQueue) : (popOrder q).Sorted timeLE :=
  List.sorted_insertionSort timeLE q

theorem drainOrder_perm (hostMap : Host → Option ThreadSafeEventQueue) (hosts : List Host) :
    (drainOrder hostMap hosts).Perm (hosts.flatMap (queueOf hostMap)) :=
  List.Perm.flatMap_left hosts (fun host _ => popOrder_perm (queueOf hostMap host))

theorem drainOrder_update_of_not_mem (hostMap : Host → Option ThreadSafeEventQueue)
    (host : Host) (v : Option ThreadSafeEventQueue) (hosts : List Host) (h : host ∉ hosts) :
    drainOrder (Function.update hostMap host v) hosts = drainOrder hostMap hosts := by
  induction hosts with
  | nil => rfl
  | cons x rest ih =>
    have hx : x ≠ host := fun hx => h (by rw [hx]; exact List.mem_cons_self _ _)
    have hrest : host ∉ rest := fun hr => h (List.mem_cons_of_mem _ hr)
    have ih' := ih hrest
    simp only [drainOrder, List.flatMap_cons, queueOf, Function.update_noteq hx] at ih' ⊢
    rw [ih']

/-- Successive pops by one thread with one barrier are successive runs of the
scan loop on the FIFOs left by the round transition of the first pop. -/
theorem popRepeat_eq_scanRepeat (tc : TimeConstants) (self : Thread)
    (barrier : SimulationTime) (n : Nat) :
    ∀ (policy : SchedulerPolicy) (tdata : HostSingleThreadData),
      policy.threadToThreadDataMap self = some tdata →
      (popRepeat tc self barrier n policy).map Prod.fst =
        scanRepeat tc (emutime_add_simtime tc.EMUTIME_SIMULATION_START barrier) n
          policy.hostToQueueDataMap (roundTransition tdata barrier).unprocessedHosts
          (roundTransition tdata barrier).processedHosts := by
  induction n with
  | zero => intro policy tdata _; simp [popRepeat, scanRepeat]
  | succ n ih =>
    intro policy tdata ht
    rw [popRepeat, scanRepeat, schedulerpolicy_pop_of_tdata tc policy self barrier tdata ht]
    rcases hs : popScan tc (emutime_add_simtime tc.EMUTIME_SIMULATION_START barrier)
        policy.hostToQueueDataMap (roundTransition tdata barrier).unprocessedHosts
        (roundTransition tdata barrier).processedHosts with _ | r
    · simp
    · simp only [Option.map_some']
      have hle : barrier ≤ ({ roundTransition tdata barrier with
          unprocessedHosts := r.unprocessed
          processedHosts := r.processed } : HostSingleThreadData).currentBarrier :=
        le_currentBarrier_roundTransition tdata barrier
      have ih' := ih
        { hostToQueueDataMap := r.hostMap
          threadToThreadDataMap :=
            Function.update policy.threadToThreadDataMap self
              (some { roundTransition tdata barrier with
                unprocessedHosts := r.unprocessed
                processedHosts := r.processed }) }
        { roundTransition tdata barrier with
          unprocessedHosts := r.unprocessed
          processedHosts := r.processed }
        (by simp)
      rw [roundTransition_of_le _ barrier hle] at ih'
      simp only at ih'
      rw [← ih']
      rcases popRepeat tc self barrier n _ with _ | ⟨evs, policy''⟩ <;> simp

theorem scanRepeat_skip (tc : TimeConstants) (barrier : SimulationTime) (n : Nat)
    (hostMap : Host → Option ThreadSafeEventQueue) (host : Host) (rest p : List Host)
    (h : drainedBelow hostMap host barrier) :
    scanRepeat tc (emutime_add_simtime tc.EMUTIME_SIMULATION_START barrier) (n + 1) hostMap
        (host :: rest) p =
      scanRepeat tc (emutime_add_simtime tc.EMUTIME_SIMULATION_START barrier) (n + 1) hostMap
        rest (p ++ [host]) := by
  rw [scanRepeat, scanRepeat, popScan_skip tc barrier hostMap host rest p h]

theorem scanRepeat_hit (tc : TimeConstants) (barrier : SimulationTime) (n : Nat)
    (hostMap : Host → Option ThreadSafeEventQueue) (host : Host) (rest p : List Host)
    (m : Event) (q' : ThreadSafeEventQueue) (h : earliestBelow hostMap host barrier m q') :
    scanRepeat tc (emutime_add_simtime tc.EMUTIME_SIMULATION_START barrier) (n + 1) hostMap
        (host :: rest) p =
      (scanRepeat tc (emutime_add_simtime tc.EMUTIME_SIMULATION_START barrier) n
        (Function.update hostMap host (some q')) (host :: rest) p).map
        (fun evs => some m :: evs) := by
  rw [scanRepeat, popScan_hit tc barrier hostMap host rest p m q' h]

theorem drainOrder_cons (hostMap : Host → Option ThreadSafeEventQueue) (host : Host)
    (rest : List Host) (q : ThreadSafeEventQueue) (hq : hostMap host = some q) :
    drainOrder hostMap (host :: rest) = popOrder q ++ drainOrder hostMap rest := by
  simp [drainOrder, queueOf, hq]

theorem scanRepeat_drain_head (tc : TimeConstants) (barrier : SimulationTime) (host : Host)
    (rest : List Host) (hnot : host ∉ rest)
    (ih : ∀ (hostMap : Host → Option ThreadSafeEventQueue) (p : List Host),
      (∀ x ∈ rest, ∃ q, hostMap x = some q ∧ ∀ e ∈ q, e.time < barrier) →
      scanRepeat tc (emutime_add_simtime tc.EMUTIME_SIMULATION_START barrier)
          ((drainOrder hostMap rest).length + 1) hostMap rest p =
        some ((drainOrder hostMap rest).map some ++ [none])) (k : Nat) :
    ∀ (hostMap : Host → Option ThreadSafeEventQueue) (p : List Host)
      (q : ThreadSafeEventQueue),
      hostMap host = some q → q.length = k → (∀ e ∈ q, e.time < barrier) →
      (∀ x ∈ rest, ∃ q, hostMap x = some q ∧ ∀ e ∈ q, e.time < barrier) →
      scanRepeat tc (emutime_add_simtime tc.EMUTIME_SIMULATION_START barrier)
          ((drainOrder hostMap (host :: rest)).length + 1) hostMap (host :: rest) p =
        some ((drainOrder hostMap (host :: rest)).map some ++ [none]) := by
  induction k with
  | zero =>
    intro hostMap p q hq hlen _ hrest
    have hnil : q = [] := List.length_eq_zero.1 hlen
    subst hnil
    have hd : drainedBelow hostMap host barrier := ⟨[], hq, by simp⟩
    have hdo : drainOrder hostMap (host :: rest) = drainOrder hostMap rest := by
      rw [drainOrder_cons hostMap host rest [] hq]; simp [popOrder]
    rw [hdo, scanRepeat_skip tc barrier _ hostMap host rest p hd]
    exact ih hostMap (p ++ [host]) hrest
  | succ k ihk =>
    intro hostMap p q hq hlen hlt hrest
    rcases hp : eventqueue_pop q with ⟨_ | m, q'⟩
    · have := (eventqueue_pop_none hp).1
      subst this
      simp at hlen
    · obtain ⟨_, hperm⟩ := eventqueue_pop_some hp
      have hm : m ∈ q := hperm.symm.subset (List.mem_cons_self _ _)
      have hb : earliestBelow hostMap host barrier m q' := ⟨q, hq, hp, hlt m hm⟩
      have hlen' : q'.length = k := by
        have := hperm.length_eq
        simp only [List.length_cons] at this
        omega
      have hq' : Function.update hostMap host (some q') host = some q' := by simp
      have hlt' : ∀ e ∈ q', e.time < barrier := fun e he =>
        hlt e (hperm.symm.subset (List.mem_cons_of_mem _ he))
      have hrest' : ∀ x ∈ rest, ∃ q, Function.update hostMap host (some q') x = some q ∧
          ∀ e ∈ q, e.time < barrier := by
        intro x hx
        have hne : x ≠ host := fun hxe => hnot (hxe ▸ hx)
        rw [Function.update_noteq hne]
        exact hrest x hx
      have hdo : drainOrder hostMap (host :: rest) =
          m :: drainOrder (Function.update hostMap host (some q')) (host :: rest) := by
        rw [drainOrder_cons hostMap host rest q hq,
          drainOrder_cons _ host rest q' hq', popOrder_of_pop hp,
          drainOrder_update_of_not_mem hostMap host (some q') rest hnot]
        rfl
      have step := ihk (Function.update hostMap host (some q')) p q' hq' hlen' hlt' hrest'
      rw [hdo, List.length_cons, scanRepeat_hit tc barrier _ hostMap host rest p m q' hb, step]
      simp

/-- Repeated scans over distinct hosts whose events are all below the barrier
return the events host after host, each host in ascending time order, then no
event. -/
theorem scanRepeat_drain (tc : TimeConstants) (barrier : SimulationTime) (u : List Host) :
    u.Nodup →
    ∀ (hostMap : Host → Option ThreadSafeEventQueue) (p : List Host),
      (∀ x ∈ u, ∃ q, hostMap x = some q ∧ ∀ e ∈ q, e.time < barrier) →
      scanRepeat tc (emutime_add_simtime tc.EMUTIME_SIMULATION_START barrier)
          ((drainOrder hostMap u).length + 1) hostMap u p =
        some ((drainOrder hostMap u).map some ++ [none]) := by
  induction u with
  | nil =>
    intro _ hostMap p _
    simp [scanRepeat, popScan, drainOrder]
  | cons host rest ih =>
    intro hnd hostMap p hall
    obtain ⟨hnot, hnd'⟩ := List.nodup_cons.1 hnd
    obtain ⟨q, hq, hlt⟩ := hall host (List.mem_cons_self _ _)
    exact scanRepeat_drain_head tc barrier host rest hnot (ih hnd') q.length hostMap p q hq rfl
      hlt (fun x hx => hall x (List.mem_cons_of_mem _ hx))

/-! ## Effect of the calls on the event queues -/

/-- A pop returns no event and leaves the queues alone, or it returns the
earliest event of the host left at the head of `unprocessedHosts` and removes it
from the queue of that host. -/
theorem schedulerpolicy_pop_cases (tc : TimeConstants) (policy : SchedulerPolicy)
    (self : Thread) (barrier : SimulationTime) (ev : Option Event) (policy' : SchedulerPolicy)
    (h : schedulerpolicy_pop tc policy self barrier = some (ev, policy')) :
    (ev = none ∧ policy'.hostToQueueDataMap = policy.hostToQueueDataMap) ∨
    (∃ m host q', ev = some m ∧ servedHost policy' self = some host ∧
      earliestBelow policy.hostToQueueDataMap host barrier m q' ∧
      policy'.hostToQueueDataMap =
        Function.update policy.hostToQueueDataMap host (some q')) := by
  rcases ht : policy.threadToThreadDataMap self with _ | tdata
  · simp only [schedulerpolicy_pop, ht, Option.some.injEq, Prod.mk.injEq] at h
    obtain ⟨rfl, rfl⟩ := h
    exact Or.inl ⟨rfl, rfl⟩
  · rw [schedulerpolicy_pop_of_tdata tc policy self barrier tdata ht] at h
    rcases hs : popScan tc (emutime_add_simtime tc.EMUTIME_SIMULATION_START barrier)
        policy.hostToQueueDataMap (roundTransition tdata barrier).unprocessedHosts
        (roundTransition tdata barrier).processedHosts with _ | r
    · simp [hs] at h
    · rw [hs] at h
      simp only [Option.map_some', Option.some.injEq, Prod.mk.injEq] at h
      obtain ⟨rfl, rfl⟩ := h
      rcases popScan_cases tc barrier _ _ _ r hs with
        ⟨_, hr⟩ | ⟨pre, host, rest, m, q', _, _, hb, hr⟩
      · left; rw [hr]; exact ⟨rfl, rfl⟩
      · right
        refine ⟨m, host, q', by rw [hr], ?_, hb, by rw [hr]⟩
        simp [servedHost, hr]

theorem queueOf_addHost (policy policy' : SchedulerPolicy) (h : Host) (assignedThread : Thread)
    (hadd : schedulerpolicy_addHost policy h assignedThread = some policy') (host : Host) :
    queueOf policy'.hostToQueueDataMap host = queueOf policy.hostToQueueDataMap host := by
  unfold schedulerpolicy_addHost at hadd
  by_cases h0 : assignedThread = 0
  · simp [h0] at hadd
  · simp only [h0, if_false, Option.some.injEq] at hadd
    subst hadd
    rcases hq : policy.hostToQueueDataMap h with _ | q
    · simp only [queueOf]
      by_cases hh : host = h
      · subst hh; simp [hq, eventqueue_new]
      · simp [Function.update_noteq hh]
    · rfl

theorem schedulerpolicy_push_cases (policy policy' : SchedulerPolicy) (event : Event)
    (srcHost dstHost : Host) (barrier t : SimulationTime)
    (h : schedulerpolicy_push policy event srcHost dstHost barrier = some (t, policy')) :
    ∃ stored : Event, stored.time = t ∧
      policy'.hostToQueueDataMap =
        Function.update policy.hostToQueueDataMap dstHost
          (some (queueOf policy.hostToQueueDataMap dstHost ++ [stored])) := by
  unfold schedulerpolicy_push at h
  rcases hq : policy.hostToQueueDataMap dstHost with _ | q
  · simp [hq] at h
  · simp only [hq, Option.some.injEq, Prod.mk.injEq] at h
    obtain ⟨rfl, rfl⟩ := h
    exact ⟨_, rfl, by simp [queueOf, hq, eventqueue_push]⟩

/-- From a state in which every pending event of `host` has time at least `lb`,
an execution without pushes behind the popped events pops the events of `host`
in ascending time order, all at or after `lb`. -/
theorem popped_sorted_from_bound (tc : TimeConstants) (host : Host) (calls : List Call) :
    ∀ (policy : SchedulerPolicy) (lb : SimulationTime),
      (∀ e ∈ queueOf policy.hostToQueueDataMap host, lb ≤ e.time) →
      noPushBehind lb (queueOps tc host policy calls) →
      (poppedEvents (queueOps tc host policy calls)).Sorted timeLE ∧
      ∀ e ∈ poppedEvents (queueOps tc host policy calls), lb ≤ e.time := by
  induction calls with
  | nil => intro policy lb _ _; simp [queueOps, poppedEvents]
  | cons c cs ih =>
    intro policy lb hq hnb
    cases c with
    | addHost h assignedThread =>
      simp only [queueOps] at hnb ⊢
      rcases hadd : schedulerpolicy_addHost policy h assignedThread with _ | policy'
      · simp [poppedEvents]
      · rw [hadd] at hnb
        simp only at hnb ⊢
        apply ih policy' lb _ hnb
        rw [queueOf_addHost policy policy' h assignedThread hadd host]
        exact hq
    | push event srcHost dstHost barrier =>
      simp only [queueOps] at hnb ⊢
      rcases hpush : schedulerpolicy_push policy event srcHost dstHost barrier with
        _ | ⟨t, policy'⟩
      · simp [poppedEvents]
      · rw [hpush] at hnb
        simp only at hnb ⊢
        obtain ⟨stored, hst, hmap⟩ :=
          schedulerpolicy_push_cases policy policy' event srcHost dstHost barrier t hpush
        by_cases hd : dstHost = host
        · simp only [hd, if_true, noPushBehind] at hnb
          simp only [hd, if_true, poppedEvents]
          apply ih policy' lb _ hnb.2
          intro e he
          rw [hmap, hd] at he
          simp only [queueOf, Function.update_same, Option.getD_some, List.mem_append,
            List.mem_singleton] at he
          rcases he with he | rfl
          · exact hq e he
          · rw [hst]; exact hnb.1
        · simp only [hd, if_false] at hnb ⊢
          apply ih policy' lb _ hnb
          intro e he
          rw [hmap] at he
          simp only [queueOf, Function.update_noteq (Ne.symm hd)] at he
          exact hq e he
    | pop self barrier =>
      simp only [queueOps] at hnb ⊢
      rcases hpop : schedulerpolicy_pop tc policy self barrier with _ | ⟨ev, policy'⟩
      · simp [poppedEvents]
      · rw [hpop] at hnb
        rcases schedulerpolicy_pop_cases tc policy self barrier ev policy' hpop with
          ⟨rfl, hmap⟩ | ⟨m, h', q', rfl, hserved, ⟨q, hq₀, hp, _⟩, hmap⟩
        · simp only at hnb ⊢
          apply ih policy' lb _ hnb
          rw [hmap]; exact hq
        · simp only at hnb ⊢
          obtain ⟨hmin, hperm⟩ := eventqueue_pop_some hp
          by_cases hs : h' = host
          · subst hs
            simp only [hserved, if_true, noPushBehind] at hnb
            simp only [hserved, if_true, poppedEvents]
            have hqo : queueOf policy.hostToQueueDataMap h' = q := by simp [queueOf, hq₀]
            have hm : lb ≤ m.time :=
              hq m (by rw [hqo]; exact hperm.symm.subset (List.mem_cons_self _ _))
            have hq' : ∀ e ∈ queueOf policy'.hostToQueueDataMap h', max lb m.time ≤ e.time := by
              intro e he
              rw [hmap] at he
              simp only [queueOf, Function.update_same, Option.getD_some] at he
              rw [max_eq_right hm]
              exact hmin e (hperm.symm.subset (List.mem_cons_of_mem _ he))
            obtain ⟨hsorted, hlb⟩ := ih policy' (max lb m.time) hq' hnb
            refine ⟨List.sorted_cons.2 ⟨fun e he => ?_, hsorted⟩, fun e he => ?_⟩
            · exact le_trans (le_max_right _ _) (hlb e he)
            · rcases List.mem_cons.1 he with rfl | he
              · exact hm
              · exact le_trans (le_max_left _ _) (hlb e he)
          · have hne : servedHost policy' self ≠ some host := by
              rw [hserved]; simpa using hs
            simp only [hne, if_false] at hnb ⊢
            apply ih policy' lb _ hnb
            intro e he
            rw [hmap] at he
            simp only [queueOf, Function.update_noteq (Ne.symm hs)] at he
            exact hq e he

/-! ## The minimum search of `schedulerpolicy_getNextTime` -/

theorem findMinTime_spec (tc : TimeConstants) (policy : SchedulerPolicy)
    (acc : SimulationTime) (host : Host) (q : ThreadSafeEventQueue)
    (hq : policy.hostToQueueDataMap host = some q) :
    ∃ r, _schedulerpolicy_findMinTime tc policy acc host = some r ∧ r ≤ acc ∧
      (∀ e ∈ q, r ≤ e.time) ∧ (r = acc ∨ ∃ e ∈ q, r = e.time) := by
  unfold _schedulerpolicy_findMinTime
  rw [hq]
  simp only
  rcases hp : eventqueue_pop q with ⟨_ | m, q'⟩
  · have hn : eventqueue_nextEventTime tc q = none := by
      simp [eventqueue_nextEventTime, eventqueue_peek_eq_pop, hp]
    rw [hn, (eventqueue_pop_none hp).1]
    exact ⟨acc, rfl, le_rfl, by simp, Or.inl rfl⟩
  · rw [eventqueue_nextEventTime_of_pop tc hp]
    obtain ⟨hmin, hperm⟩ := eventqueue_pop_some hp
    have hm : m ∈ q := hperm.symm.subset (List.mem_cons_self _ _)
    have hsub : emutime_sub_emutime (tc.EMUTIME_SIMULATION_START + m.time)
        tc.EMUTIME_SIMULATION_START = m.time := by
      simp [emutime_sub_emutime]
    simp only [hsub]
    refine ⟨min acc m.time, rfl, min_le_left _ _, ?_, ?_⟩
    · intro e he
      exact le_trans (min_le_right _ _) (hmin e he)
    · rcases le_total acc m.time with hle | hle
      · left; exact min_eq_left hle
      · right; exact ⟨m, hm, min_eq_right hle⟩

theorem findMinTimeForeach_spec (tc : TimeConstants) (policy : SchedulerPolicy)
    (hosts : List Host) :
    ∀ acc : SimulationTime,
      (∀ host ∈ hosts, ∃ q, policy.hostToQueueDataMap host = some q) →
      ∃ r, findMinTimeForeach tc policy hosts acc = some r ∧ r ≤ acc ∧
        (∀ e ∈ hosts.flatMap (queueOf policy.hostToQueueDataMap), r ≤ e.time) ∧
        (r = acc ∨ ∃ e ∈ hosts.flatMap (queueOf policy.hostToQueueDataMap), r = e.time) := by
  induction hosts with
  | nil => intro acc _; exact ⟨acc, rfl, le_rfl, by simp, Or.inl rfl⟩
  | cons host rest ih =>
    intro acc hreg
    obtain ⟨q, hq⟩ := hreg host (List.mem_cons_self _ _)
    obtain ⟨r₁, h₁, hle₁, hall₁, hatt₁⟩ := findMinTime_spec tc policy acc host q hq
    obtain ⟨r, h₂, hle₂, hall₂, hatt₂⟩ :=
      ih r₁ (fun x hx => hreg x (List.mem_cons_of_mem _ hx))
    have hqo : queueOf policy.hostToQueueDataMap host = q := by simp [queueOf, hq]
    refine ⟨r, ?_, le_trans hle₂ hle₁, ?_, ?_⟩
    · rw [findMinTimeForeach, h₁]; exact h₂
    · intro e he
      rw [List.flatMap_cons, List.mem_append, hqo] at he
      rcases he with he | he
      · exact le_trans hle₂ (hall₁ e he)
      · exact hall₂ e he
    · rcases hatt₂ with hr | ⟨e, he, hr⟩
      · rcases hatt₁ with hr₁ | ⟨e, he, hr₁⟩
        · left; rw [hr, hr₁]
        · right
          refine ⟨e, ?_, by rw [hr, hr₁]⟩
          rw [List.flatMap_cons, List.mem_append, hqo]
          exact Or.inl he
      · right
        refine ⟨e, ?_, hr⟩
        rw [List.flatMap_cons, List.mem_append]
        exact Or.inr he

/-! ## The hosts of a thread along an execution -/

theorem popScan_fifos_perm (tc : TimeConstants) (barrier : SimulationTime)
    (hostMap : Host → Option ThreadSafeEventQueue) (u p : List Host) (r : PopScan)
    (h : popScan tc (emutime_add_simtime tc.EMUTIME_SIMULATION_START barrier) hostMap u p =
      some r) :
    (r.unprocessed ++ r.processed).Perm (u ++ p) := by
  rcases popScan_cases tc barrier hostMap u p r h with
    ⟨_, hr⟩ | ⟨pre, host, rest, m, q', hu, _, _, hr⟩
  · rw [hr]
    simp only [List.nil_append]
    exact List.perm_append_comm
  · rw [hr, hu]
    simp only
    rw [← List.append_assoc]
    exact List.perm_append_comm.trans (by rw [List.append_assoc])

theorem threadHosts_pop (tc : TimeConstants) (policy policy' : SchedulerPolicy)
    (self : Thread) (barrier : SimulationTime) (ev : Option Event)
    (h : schedulerpolicy_pop tc policy self barrier = some (ev, policy')) (t : Thread) :
    (threadHosts policy' t).Perm (threadHosts policy t) := by
  rcases ht : policy.threadToThreadDataMap self with _ | tdata
  · simp only [schedulerpolicy_pop, ht, Option.some.injEq, Prod.mk.injEq] at h
    rw [← h.2]
  · rw [schedulerpolicy_pop_of_tdata tc policy self barrier tdata ht] at h
    rcases hs : popScan tc (emutime_add_simtime tc.EMUTIME_SIMULATION_START barrier)
        policy.hostToQueueDataMap (roundTransition tdata barrier).unprocessedHosts
        (roundTransition tdata barrier).processedHosts with _ | r
    · simp [hs] at h
    · rw [hs] at h
      simp only [Option.map_some', Option.some.injEq, Prod.mk.injEq] at h
      obtain ⟨_, rfl⟩ := h
      by_cases hts : t = self
      · subst hts
        simp only [threadHosts, Function.update_same, ht]
        exact (popScan_fifos_perm tc barrier _ _ _ r hs).trans
          (roundTransition_fifos tdata barrier)
      · simp only [threadHosts, Function.update_noteq hts]
        exact List.Perm.refl _

theorem threadHosts_addHost (policy policy' : SchedulerPolicy) (host : Host)
    (assignedThread : Thread)
    (h : schedulerpolicy_addHost policy host assignedThread = some policy') (t : Thread) :
    (threadHosts policy' t).Perm
      (threadHosts policy t ++ if assignedThread = t then [host] else []) := by
  unfold schedulerpolicy_addHost at h
  by_cases h0 : assignedThread = 0
  · simp [h0] at h
  · simp only [h0, if_false, Option.some.injEq] at h
    subst h
    by_cases hat : assignedThread = t
    · subst hat
      simp only [threadHosts, Function.update_same, if_true]
      rcases policy.threadToThreadDataMap assignedThread with _ | tdata
      · simp [_threaddata_new]
      · simp only
        rw [List.append_assoc, List.append_assoc]
        exact List.Perm.append_left _ List.perm_append_comm
    · simp only [threadHosts, Function.update_noteq (Ne.symm hat), hat, if_false,
        List.append_nil]
      exact List.Perm.refl _

theorem threadHosts_push (policy policy' : SchedulerPolicy) (event : Event)
    (srcHost dstHost : Host) (barrier t' : SimulationTime)
    (h : schedulerpolicy_push policy event srcHost dstHost barrier = some (t', policy'))
    (t : Thread) : threadHosts policy' t = threadHosts policy t := by
  unfold schedulerpolicy_push at h
  rcases hq : policy.hostToQueueDataMap dstHost with _ | q
  · simp [hq] at h
  · simp only [hq, Option.some.injEq, Prod.mk.injEq] at h
    rw [← h.2]
    rfl

theorem threadHosts_applyCall (tc : TimeConstants) (policy policy' : SchedulerPolicy)
    (c : Call) (h : applyCall tc policy c = some policy') (t : Thread) :
    (threadHosts policy' t).Perm (threadHosts policy t ++ addedHosts t [c]) := by
  cases c with
  | addHost host assignedThread =>
    simp only [applyCall] at h
    have := threadHosts_addHost policy policy' host assignedThread h t
    by_cases hat : assignedThread = t
    · simpa [addedHosts, hat] using this
    · simpa [addedHosts, hat] using this
  | push event srcHost dstHost barrier =>
    simp only [applyCall, Option.map_eq_some'] at h
    obtain ⟨⟨t', p'⟩, hp, rfl⟩ := h
    rw [threadHosts_push policy p' event srcHost dstHost barrier t' hp t]
    simp [addedHosts]
  | pop self barrier =>
    simp only [applyCall, Option.map_eq_some'] at h
    obtain ⟨⟨ev, p'⟩, hp, rfl⟩ := h
    simpa [addedHosts] using threadHosts_pop tc policy p' self barrier ev hp t

theorem addedHosts_cons (t : Thread) (c : Call) (cs : List Call) :
    addedHosts t (c :: cs) = addedHosts t [c] ++ addedHosts t cs := by
  cases c with
  | addHost host assignedThread =>
    by_cases hat : assignedThread = t <;> simp [addedHosts, hat]
  | push event srcHost dstHost barrier => simp [addedHosts]
  | pop self barrier => simp [addedHosts]

/-- Along an execution the hosts of a thread are, up to order, its hosts at the
start followed by the hosts added for it. -/
theorem threadHosts_applyCalls (tc : TimeConstants) (calls : List Call) :
    ∀ (policy policy' : SchedulerPolicy), applyCalls tc policy calls = some policy' →
      ∀ t : Thread,
        (threadHosts policy' t).Perm (threadHosts policy t ++ addedHosts t calls) := by
  induction calls with
  | nil =>
    intro policy policy' h t
    simp only [applyCalls, Option.some.injEq] at h
    subst h
    simp [addedHosts]
  | cons c cs ih =>
    intro policy policy' h t
    simp only [applyCalls] at h
    rcases hc : applyCall tc policy c with _ | p₁
    · simp [hc] at h
    · rw [hc] at h
      simp only at h
      rw [addedHosts_cons, ← List.append_assoc]
      exact (ih p₁ policy' h t).trans
        (List.Perm.append_right _ (threadHosts_applyCall tc policy p₁ c hc t))

theorem foldl_concat_queue_iter (u : List Host) :
    ∀ p : List Host, u.foldl concat_queue_iter p = p ++ u := by
  induction u with
  | nil => intro p; simp
  | cons x u ih => intro p; simp [List.foldl_cons, concat_queue_iter, ih]

theorem schedulerpolicy_getAssignedHosts_fst (policy : SchedulerPolicy) (self : Thread)
    (tdata : HostSingleThreadData) (ht : policy.threadToThreadDataMap self = some tdata) :
    (schedulerpolicy_getAssignedHosts policy self).1 =
      some (tdata.processedHosts ++ tdata.unprocessedHosts) := by
  unfold schedulerpolicy_getAssignedHosts
  rw [ht]
  simp only
  by_cases hu : tdata.unprocessedHosts.isEmpty = true
  · rw [if_pos hu, List.isEmpty_iff.1 hu]; simp
  · rw [if_neg hu]
    by_cases hp : tdata.processedHosts.isEmpty = true
    · rw [if_pos hp, List.isEmpty_iff.1 hp]; simp
    · rw [if_neg hp]
      simp only [foldl_concat_queue_iter]

theorem mem_addedHosts_of_mem (host : Host) (thread : Thread) (calls : List Call)
    (h : Call.addHost host thread ∈ calls) : host ∈ addedHosts thread calls := by
  induction calls with
  | nil => simp at h
  | cons c cs ih =>
    rw [addedHosts_cons]
    rcases List.mem_cons.1 h with rfl | h
    · simp [addedHosts]
    · exact List.mem_append_right _ (ih h)

theorem count_addedHosts_le (host : Host) (t t' : Thread) (hne : t ≠ t')
    (calls : List Call) :
    (addedHosts t calls).count host + (addedHosts t' calls).count host ≤
      (allAddedHosts calls).count host := by
  induction calls with
  | nil => simp [addedHosts, allAddedHosts]
  | cons c cs ih =>
    cases c with
    | addHost h a =>
      by_cases h1 : a = t
      · have h2 : ¬ a = t' := fun h2 => hne (h1.symm.trans h2)
        simp only [addedHosts, allAddedHosts, h1, h2, if_true, if_false, List.count_cons]
        simp only [h1] at h2
        simp only [h2, if_false]
        omega
      · by_cases h2 : a = t'
        · simp only [addedHosts, allAddedHosts, h1, h2, if_true, if_false, List.count_cons]
          have h3 : ¬ t' = t := fun h3 => hne h3.symm
          simp only [h3, if_false]
          omega
        · simp only [addedHosts, allAddedHosts, h1, h2, if_false, List.count_cons]
          omega
    | push event srcHost dstHost barrier => simpa [addedHosts, allAddedHosts] using ih
    | pop self barrier => simpa [addedHosts, allAddedHosts] using ih

theorem threadHosts_new (t : Thread) : threadHosts schedulerpolicy_new t = [] := rfl

/-! ## The entries of the two maps along an execution -/

theorem hostMap_isSome_addHost (policy policy' : SchedulerPolicy) (h : Host)
    (assignedThread : Thread)
    (hadd : schedulerpolicy_addHost policy h assignedThread = some policy') (x : Host) :
    (policy'.hostToQueueDataMap x).isSome = true ↔
      ((policy.hostToQueueDataMap x).isSome = true ∨ x = h) := by
  unfold schedulerpolicy_addHost at hadd
  by_cases h0 : assignedThread = 0
  · simp [h0] at hadd
  · simp only [h0, if_false, Option.some.injEq] at hadd
    subst hadd
    rcases hq : policy.hostToQueueDataMap h with _ | q
    · by_cases hx : x = h
      · subst hx; simp
      · simp [Function.update_noteq hx, hx]
    · simp only
      constructor
      · exact Or.inl
      · rintro (hs | rfl)
        · exact hs
        · simp [hq]

theorem hostMap_isSome_push (policy policy' : SchedulerPolicy) (event : Event)
    (srcHost dstHost : Host) (barrier t : SimulationTime)
    (h : schedulerpolicy_push policy event srcHost dstHost barrier = some (t, policy'))
    (x : Host) :
    (policy'.hostToQueueDataMap x).isSome = (policy.hostToQueueDataMap x).isSome := by
  unfold schedulerpolicy_push at h
  rcases hq : policy.hostToQueueDataMap dstHost with _ | q
  · simp [hq] at h
  · simp only [hq, Option.some.injEq, Prod.mk.injEq] at h
    rw [← h.2]
    by_cases hx : x = dstHost
    · subst hx; simp [hq]
    · simp [Function.update_noteq hx]

theorem hostMap_isSome_pop (tc : TimeConstants) (policy policy' : SchedulerPolicy)
    (self : Thread) (barrier : SimulationTime) (ev : Option Event)
    (h : schedulerpolicy_pop tc policy self barrier = some (ev, policy')) (x : Host) :
    (policy'.hostToQueueDataMap x).isSome = (policy.hostToQueueDataMap x).isSome := by
  rcases schedulerpolicy_pop_cases tc policy self barrier ev policy' h with
    ⟨_, hmap⟩ | ⟨m, host, q', _, _, ⟨q, hq, _, _⟩, hmap⟩
  · rw [hmap]
  · rw [hmap]
    by_cases hx : x = host
    · subst hx; simp [hq]
    · simp [Function.update_noteq hx]

/-- Along an execution a host has a queue exactly when it had one at the start
or was passed to `add_host`. -/
theorem hostMap_isSome_applyCalls (tc : TimeConstants) (calls : List Call) :
    ∀ (policy policy' : SchedulerPolicy), applyCalls tc policy calls = some policy' →
      ∀ x : Host, (policy'.hostToQueueDataMap x).isSome = true ↔
        ((policy.hostToQueueDataMap x).isSome = true ∨ x ∈ allAddedHosts calls) := by
  induction calls with
  | nil =>
    intro policy policy' h x
    simp only [applyCalls, Option.some.injEq] at h
    subst h
    simp [allAddedHosts]
  | cons c cs ih =>
    intro policy policy' h x
    simp only [applyCalls] at h
    rcases hc : applyCall tc policy c with _ | p₁
    · simp [hc] at h
    · rw [hc] at h
      simp only at h
      rw [ih p₁ policy' h x]
      cases c with
      | addHost host assignedThread =>
        simp only [applyCall] at hc
        rw [hostMap_isSome_addHost policy p₁ host assignedThread hc x]
        simp only [allAddedHosts, List.mem_cons]
        tauto
      | push event srcHost dstHost barrier =>
        simp only [applyCall, Option.map_eq_some'] at hc
        obtain ⟨⟨t, p'⟩, hp, rfl⟩ := hc
        rw [hostMap_isSome_push policy p' event srcHost dstHost barrier t hp x]
        simp [allAddedHosts]
      | pop self barrier =>
        simp only [applyCall, Option.map_eq_some'] at hc
        obtain ⟨⟨ev, p'⟩, hp, rfl⟩ := hc
        rw [hostMap_isSome_pop tc policy p' self barrier ev hp x]
        simp [allAddedHosts]

theorem threads_isSome_applyCall (tc : TimeConstants) (policy policy' : SchedulerPolicy)
    (c : Call) (h : applyCall tc policy c = some policy') (t : Thread) :
    (policy'.threadToThreadDataMap t).isSome = true ↔
      ((policy.threadToThreadDataMap t).isSome = true ∨ addedHosts t [c] ≠ []) := by
  cases c with
  | addHost host assignedThread =>
    simp only [applyCall, schedulerpolicy_addHost] at h
    by_cases h0 : assignedThread = 0
    · simp [h0] at h
    · simp only [h0, if_false, Option.some.injEq] at h
      subst h
      by_cases hat : assignedThread = t
      · subst hat; simp [addedHosts]
      · simp [addedHosts, hat, Function.update_noteq (Ne.symm hat)]
  | push event srcHost dstHost barrier =>
    simp only [applyCall, Option.map_eq_some'] at h
    obtain ⟨⟨t', p'⟩, hp, rfl⟩ := h
    unfold schedulerpolicy_push at hp
    rcases hq : policy.hostToQueueDataMap dstHost with _ | q
    · simp [hq] at hp
    · simp only [hq, Option.some.injEq, Prod.mk.injEq] at hp
      rw [← hp.2]
      simp [addedHosts]
  | pop self barrier =>
    simp only [applyCall, Option.map_eq_some'] at h
    obtain ⟨⟨ev, p'⟩, hp, rfl⟩ := h
    rcases ht : policy.threadToThreadDataMap self with _ | tdata
    · simp only [schedulerpolicy_pop, ht, Option.some.injEq, Prod.mk.injEq] at hp
      rw [← hp.2]
      simp [addedHosts]
    · rw [schedulerpolicy_pop_of_tdata tc policy self barrier tdata ht] at hp
      simp only [Option.map_eq_some', Prod.mk.injEq] at hp
      obtain ⟨r, _, _, rfl⟩ := hp
      by_cases hts : t = self
      · subst hts; simp [addedHosts, ht]
      · simp [addedHosts, Function.update_noteq hts]

/-- Along an execution a thread has a ThreadState exactly when it had one at
the start or `add_host` was called for it. -/
theorem threads_isSome_applyCalls (tc : TimeConstants) (calls : List Call) :
    ∀ (policy policy' : SchedulerPolicy), applyCalls tc policy calls = some policy' →
      ∀ t : Thread, (policy'.threadToThreadDataMap t).isSome = true ↔
        ((policy.threadToThreadDataMap t).isSome = true ∨ addedHosts t calls ≠ []) := by
  induction calls with
  | nil =>
    intro policy policy' h t
    simp only [applyCalls, Option.some.injEq] at h
    subst h
    simp [addedHosts]
  | cons c cs ih =>
    intro policy policy' h t
    simp only [applyCalls] at h
    rcases hc : applyCall tc policy c with _ | p₁
    · simp [hc] at h
    · rw [hc] at h
      simp only at h
      rw [ih p₁ policy' h t, threads_isSome_applyCall tc policy p₁ c hc t,
        addedHosts_cons t c cs]
      simp only [ne_eq, List.append_eq_nil, not_and]
      tauto

theorem addedHosts_sublist (t : Thread) (calls : List Call) :
    (addedHosts t calls).Sublist (allAddedHosts calls) := by
  induction calls with
  | nil => simp [addedHosts, allAddedHosts]
  | cons c cs ih =>
    cases c with
    | addHost host assignedThread =>
      by_cases hat : assignedThread = t
      · simpa [addedHosts, allAddedHosts, hat] using ih
      · simp only [addedHosts, allAddedHosts, hat, if_false]
        exact List.Sublist.cons _ ih
    | push event srcHost dstHost barrier => simpa [addedHosts, allAddedHosts] using ih
    | pop self barrier => simpa [addedHosts, allAddedHosts] using ih

/-- In a state reached from `schedulerpolicy_new` every host in the FIFOs of a
thread has a queue. -/
theorem threadHosts_registered_of_run (tc : TimeConstants) (calls : List Call)
    (policy : SchedulerPolicy)
    (hrun : applyCalls tc schedulerpolicy_new calls = some policy) (t : Thread) :
    ∀ host ∈ threadHosts policy t, ∃ q, policy.hostToQueueDataMap host = some q := by
  intro host hh
  have hperm := threadHosts_applyCalls tc calls schedulerpolicy_new policy hrun t
  rw [threadHosts_new, List.nil_append] at hperm
  have hall : host ∈ allAddedHosts calls :=
    (addedHosts_sublist t calls).subset (hperm.subset hh)
  have h := (hostMap_isSome_applyCalls tc calls schedulerpolicy_new policy hrun host).2
    (Or.inr hall)
  exact Option.isSome_iff_exists.1 h

/-- With every scanned host registered the scan loop completes. -/
theorem popScan_some_of_registered (tc : TimeConstants) (barrier : SimulationTime)
    (hostMap : Host → Option ThreadSafeEventQueue) (u : List Host) :
    ∀ p : List Host, (∀ host ∈ u, ∃ q, hostMap host = some q) →
      ∃ r, popScan tc (emutime_add_simtime tc.EMUTIME_SIMULATION_START barrier) hostMap u p =
        some r := by
  induction u with
  | nil => intro p _; exact ⟨_, rfl⟩
  | cons x rest ih =>
    intro p hreg
    obtain ⟨q, hq⟩ := hreg x (List.mem_cons_self _ _)
    rcases drainedBelow_or_earliestBelow barrier hq with hd | ⟨m, q', hb⟩
    · rw [popScan_skip tc barrier hostMap x rest p hd]
      exact ih _ (fun y hy => hreg y (List.mem_cons_of_mem _ hy))
    · exact ⟨_, popScan_hit tc barrier hostMap x rest p m q' hb⟩

theorem drainedBelow_iff_queueOf {hostMap : Host → Option ThreadSafeEventQueue} {host : Host}
    {q : ThreadSafeEventQueue} (barrier : SimulationTime) (hq : hostMap host = some q) :
    drainedBelow hostMap host barrier ↔ ∀ e ∈ queueOf hostMap host, barrier ≤ e.time := by
  simp [drainedBelow, queueOf, hq]

/-! ## The FIFOs of the calling thread across a pop -/

/-- A pop of a thread with a ThreadState moves a prefix `pre` of the
`unprocessedHosts` left by the round-transition step to the tail of
`processedHosts` and changes nothing else in the ThreadState. -/
theorem schedulerpolicy_pop_fifos (tc : TimeConstants) (policy policy' : SchedulerPolicy)
    (self : Thread) (barrier : SimulationTime) (tdata : HostSingleThreadData)
    (ev : Option Event) (ht : policy.threadToThreadDataMap self = some tdata)
    (h : schedulerpolicy_pop tc policy self barrier = some (ev, policy')) :
    ∃ pre rest, (roundTransition tdata barrier).unprocessedHosts = pre ++ rest ∧
      (ev = none → rest = []) ∧
      policy'.threadToThreadDataMap =
        Function.update policy.threadToThreadDataMap self
          (some { roundTransition tdata barrier with
            unprocessedHosts := rest
            processedHosts := (roundTransition tdata barrier).processedHosts ++ pre }) := by
  rw [schedulerpolicy_pop_of_tdata tc policy self barrier tdata ht] at h
  rcases hs : popScan tc (emutime_add_simtime tc.EMUTIME_SIMULATION_START barrier)
      policy.hostToQueueDataMap (roundTransition tdata barrier).unprocessedHosts
      (roundTransition tdata barrier).processedHosts with _ | r
  · simp [hs] at h
  · rw [hs] at h
    simp only [Option.map_some', Option.some.injEq, Prod.mk.injEq] at h
    obtain ⟨rfl, rfl⟩ := h
    rcases popScan_cases tc barrier _ _ _ r hs with
      ⟨_, hr⟩ | ⟨pre, host, rest, m, q', hu, _, _, hr⟩
    · exact ⟨(roundTransition tdata barrier).unprocessedHosts, [], by simp, fun _ => rfl,
        by rw [hr]⟩
    · refine ⟨pre, host :: rest, hu, ?_, by rw [hr]⟩
      intro he
      rw [hr] at he
      simp at he

theorem threads_push (policy policy' : SchedulerPolicy) (event : Event)
    (srcHost dstHost : Host) (barrier t : SimulationTime)
    (h : schedulerpolicy_push policy event srcHost dstHost barrier = some (t, policy')) :
    policy'.threadToThreadDataMap = policy.threadToThreadDataMap := by
  unfold schedulerpolicy_push at h
  rcases hq : policy.hostToQueueDataMap dstHost with _ | q
  · simp [hq] at h
  · simp only [hq, Option.some.injEq, Prod.mk.injEq] at h
    rw [← h.2]

theorem threads_applyCalls_of_pushes (tc : TimeConstants) (calls : List Call) :
    ∀ (policy policy' : SchedulerPolicy), applyCalls tc policy calls = some policy' →
      (∀ c ∈ calls, Call.isPush c = true) →
      policy'.threadToThreadDataMap = policy.threadToThreadDataMap := by
  induction calls with
  | nil =>
    intro policy policy' h _
    simp only [applyCalls, Option.some.injEq] at h
    rw [h]
  | cons c cs ih =>
    intro policy policy' h hpush
    simp only [applyCalls] at h
    rcases hc : applyCall tc policy c with _ | p₁
    · simp [hc] at h
    · rw [hc] at h
      simp only at h
      rw [ih p₁ policy' h (fun x hx => hpush x (List.mem_cons_of_mem _ hx))]
      have hcp := hpush c (List.mem_cons_self _ _)
      cases c with
      | addHost host assignedThread => simp [Call.isPush] at hcp
      | push event srcHost dstHost barrier =>
        simp only [applyCall, Option.map_eq_some'] at hc
        obtain ⟨⟨t, p'⟩, hp, rfl⟩ := hc
        exact threads_push policy p' event srcHost dstHost barrier t hp
      | pop self barrier => simp [Call.isPush] at hcp

theorem currentBarrier_roundTransition (tdata : HostSingleThreadData)
    (barrier : SimulationTime) :
    (roundTransition tdata barrier).currentBarrier = max tdata.currentBarrier barrier := by
  by_cases h : tdata.currentBarrier < barrier
  · rw [roundTransition_of_lt tdata barrier h]
    exact (max_eq_right (le_of_lt h)).symm
  · rw [roundTransition_of_le tdata barrier (not_lt.1 h)]
    exact (max_eq_left (not_lt.1 h)).symm

/-- A pop of a thread whose `unprocessedHosts` is empty and whose barrier is not
raised returns no event and leaves the policy as it is. -/
theorem schedulerpolicy_pop_of_unprocessed_nil (tc : TimeConstants) (policy : SchedulerPolicy)
    (self : Thread) (barrier : SimulationTime) (tdata : HostSingleThreadData)
    (ht : policy.threadToThreadDataMap self = some tdata)
    (hle : barrier ≤ tdata.currentBarrier) (hu : tdata.unprocessedHosts = []) :
    schedulerpolicy_pop tc policy self barrier = some (none, policy) := by
  rw [schedulerpolicy_pop_of_tdata tc policy self barrier tdata ht,
    roundTransition_of_le tdata barrier hle, hu]
  simp only [popScan, Option.map_some', Option.some.injEq, Prod.mk.injEq, true_and]
  have htd : ({ tdata with unprocessedHosts := [], processedHosts := tdata.processedHosts } :
      HostSingleThreadData) = tdata := by
    cases tdata
    simp only at hu
    simp [hu]
  rw [htd, ← ht, Function.update_eq_self]

/-! ## Hosts moved to `processedHosts` during a round -/

theorem applyCalls_append (tc : TimeConstants) (a b : List Call) :
    ∀ policy : SchedulerPolicy,
      applyCalls tc policy (a ++ b) =
        (applyCalls tc policy a).bind (fun policy' => applyCalls tc policy' b) := by
  induction a with
  | nil => intro policy; rfl
  | cons c cs ih =>
    intro policy
    simp only [List.cons_append, applyCalls]
    rcases applyCall tc policy c with _ | p₁
    · rfl
    · exact ih p₁

/-- The hosts a pop moves are the prefix of `unprocessedHosts` it appends to
`processedHosts`. -/
theorem movedByPop_spec (tc : TimeConstants) (policy policy' : SchedulerPolicy)
    (self : Thread) (barrier : SimulationTime) (tdata : HostSingleThreadData)
    (ev : Option Event) (ht : policy.threadToThreadDataMap self = some tdata)
    (h : schedulerpolicy_pop tc policy self barrier = some (ev, policy')) :
    processedOf policy' self =
        (roundTransition tdata barrier).processedHosts ++ movedByPop tc policy self barrier ∧
      (roundTransition tdata barrier).unprocessedHosts =
        movedByPop tc policy self barrier ++
          (threadHosts policy' self).take
            ((threadHosts policy' self).length - (processedOf policy' self).length) := by
  obtain ⟨pre, rest, hu, _, hthreads⟩ :=
    schedulerpolicy_pop_fifos tc policy policy' self barrier tdata ev ht h
  have hp : processedOf policy' self =
      (roundTransition tdata barrier).processedHosts ++ pre := by
    simp [processedOf, hthreads]
  have hth : threadHosts policy' self =
      rest ++ ((roundTransition tdata barrier).processedHosts ++ pre) := by
    simp [threadHosts, hthreads]
  have hm : movedByPop tc policy self barrier = pre := by
    simp only [movedByPop, ht, h, hp, List.drop_left]
  rw [hm, hu, hp, hth]
  refine ⟨rfl, ?_⟩
  simp

theorem processedOf_addHost (policy policy' : SchedulerPolicy) (host : Host)
    (assignedThread : Thread)
    (h : schedulerpolicy_addHost policy host assignedThread = some policy') (t : Thread) :
    processedOf policy' t = processedOf policy t := by
  unfold schedulerpolicy_addHost at h
  by_cases h0 : assignedThread = 0
  · simp [h0] at h
  · simp only [h0, if_false, Option.some.injEq] at h
    subst h
    by_cases hat : assignedThread = t
    · subst hat
      simp only [processedOf, Function.update_same]
      rcases policy.threadToThreadDataMap assignedThread with _ | tdata <;> rfl
    · simp only [processedOf, Function.update_noteq (Ne.symm hat)]

theorem processedOf_pop_other (tc : TimeConstants) (policy policy' : SchedulerPolicy)
    (s self : Thread) (barrier : SimulationTime) (ev : Option Event) (hne : s ≠ self)
    (h : schedulerpolicy_pop tc policy s barrier = some (ev, policy')) :
    processedOf policy' self = processedOf policy self := by
  rcases ht : policy.threadToThreadDataMap s with _ | tdata
  · simp only [schedulerpolicy_pop, ht, Option.some.injEq, Prod.mk.injEq] at h
    rw [← h.2]
  · obtain ⟨pre, rest, _, _, hthreads⟩ :=
      schedulerpolicy_pop_fifos tc policy policy' s barrier tdata ev ht h
    simp only [processedOf, hthreads, Function.update_noteq (Ne.symm hne)]

/-- One call extends `processedHosts` of thread `self` by the hosts it moves,
after whatever the round-transition step of the call left of it. -/
theorem processedOf_applyCall (tc : TimeConstants) (self : Thread)
    (policy policy' : SchedulerPolicy) (c : Call)
    (h : applyCall tc policy c = some policy') :
    ∃ X, processedOf policy' self = X ++ movedHosts tc self policy [c] ∧
      (noRoundTransition tc self policy [c] = true → X = processedOf policy self) := by
  cases c with
  | addHost host assignedThread =>
    refine ⟨processedOf policy self, ?_, fun _ => rfl⟩
    simp only [applyCall] at h
    simp [movedHosts, applyCall, h, processedOf_addHost policy policy' host assignedThread h]
  | push event srcHost dstHost barrier =>
    refine ⟨processedOf policy self, ?_, fun _ => rfl⟩
    have h' := h
    simp only [applyCall, Option.map_eq_some'] at h'
    obtain ⟨⟨t, p'⟩, hp, rfl⟩ := h'
    simp [movedHosts, h, processedOf, threads_push policy p' event srcHost dstHost barrier t hp]
  | pop s barrier =>
    have h' := h
    simp only [applyCall, Option.map_eq_some'] at h'
    obtain ⟨⟨ev, p'⟩, hp, rfl⟩ := h'
    by_cases hs : s = self
    · subst hs
      rcases ht : policy.threadToThreadDataMap s with _ | tdata
      · refine ⟨processedOf policy s, ?_, fun _ => rfl⟩
        have hp' := hp
        simp only [schedulerpolicy_pop, ht, Option.some.injEq, Prod.mk.injEq] at hp'
        simp [movedHosts, h, movedByPop, ht, ← hp'.2]
      · refine ⟨(roundTransition tdata barrier).processedHosts, ?_, ?_⟩
        · simp [movedHosts, h,
            (movedByPop_spec tc policy p' s barrier tdata ev ht hp).1]
        · intro hnt
          simp [noRoundTransition, popTransitions, ht, h] at hnt
          rw [roundTransition_of_le tdata barrier hnt]
          simp [processedOf, ht]
    · refine ⟨processedOf policy self, ?_, fun _ => rfl⟩
      simp [movedHosts, h, hs, processedOf_pop_other tc policy p' s self barrier ev hs hp]

theorem movedHosts_cons (tc : TimeConstants) (self : Thread) (policy policy' : SchedulerPolicy)
    (c : Call) (cs : List Call) (h : applyCall tc policy c = some policy') :
    movedHosts tc self policy (c :: cs) =
      movedHosts tc self policy [c] ++ movedHosts tc self policy' cs := by
  simp [movedHosts, h]

theorem noRoundTransition_cons (tc : TimeConstants) (self : Thread)
    (policy policy' : SchedulerPolicy) (c : Call) (cs : List Call)
    (h : applyCall tc policy c = some policy')
    (hnt : noRoundTransition tc self policy (c :: cs) = true) :
    noRoundTransition tc self policy [c] = true ∧
      noRoundTransition tc self policy' cs = true := by
  simp only [noRoundTransition, h, Bool.and_eq_true] at hnt ⊢
  exact ⟨⟨hnt.1, trivial⟩, hnt.2⟩

/-- During a stretch without round transition of thread `self` the hosts moved
are appended, in order, to its `processedHosts`. -/
theorem processedOf_applyCalls (tc : TimeConstants) (self : Thread) (calls : List Call) :
    ∀ (policy policy' : SchedulerPolicy), applyCalls tc policy calls = some policy' →
      noRoundTransition tc self policy calls = true →
      processedOf policy' self = processedOf policy self ++ movedHosts tc self policy calls := by
  induction calls with
  | nil =>
    intro policy policy' h _
    simp only [applyCalls, Option.some.injEq] at h
    subst h
    simp [movedHosts]
  | cons c cs ih =>
    intro policy policy' h hnt
    simp only [applyCalls] at h
    rcases hc : applyCall tc policy c with _ | p₁
    · simp [hc] at h
    · rw [hc] at h
      simp only at h
      obtain ⟨hnt₁, hnt₂⟩ := noRoundTransition_cons tc self policy p₁ c cs hc hnt
      obtain ⟨X, hX, hXeq⟩ := processedOf_applyCall tc self policy p₁ c hc
      rw [ih p₁ policy' h hnt₂, hX, hXeq hnt₁, movedHosts_cons tc self policy p₁ c cs hc,
        List.append_assoc]

theorem processedOf_sublist_threadHosts (policy : SchedulerPolicy) (t : Thread) :
    (processedOf policy t).Sublist (threadHosts policy t) := by
  unfold processedOf threadHosts
  rcases policy.threadToThreadDataMap t with _ | tdata
  · exact List.Sublist.refl _
  · exact List.sublist_append_right _ _

/-! ## The service order along an execution -/

theorem serviceOrder_roundTransition (tdata : HostSingleThreadData) (barrier : SimulationTime)
    (h : ¬ tdata.currentBarrier < barrier ∨ tdata.unprocessedHosts = [] ∨
      tdata.processedHosts = []) :
    (roundTransition tdata barrier).processedHosts ++
        (roundTransition tdata barrier).unprocessedHosts =
      tdata.processedHosts ++ tdata.unprocessedHosts := by
  by_cases hlt : tdata.currentBarrier < barrier
  · rw [roundTransition_of_lt tdata barrier hlt]
    rcases h with h | h | h
    · exact absurd hlt h
    · simp [h]
    · simp [h]
  · rw [roundTransition_of_le tdata barrier (not_lt.1 hlt)]

theorem serviceOrder_applyCall (tc : TimeConstants) (self : Thread)
    (policy policy' : SchedulerPolicy) (c : Call)
    (h : applyCall tc policy c = some policy')
    (hd : disciplined tc self policy [c] = true) :
    serviceOrder policy' self = serviceOrder policy self ++ addedHosts self [c] := by
  cases c with
  | addHost host assignedThread =>
    simp only [applyCall, schedulerpolicy_addHost] at h
    by_cases h0 : assignedThread = 0
    · simp [h0] at h
    · simp only [h0, if_false, Option.some.injEq] at h
      subst h
      by_cases hat : assignedThread = self
      · subst hat
        simp only [serviceOrder, Function.update_same, addedHosts, if_true]
        rcases policy.threadToThreadDataMap assignedThread with _ | tdata
        · simp [_threaddata_new]
        · simp
      · simp [serviceOrder, addedHosts, hat, Function.update_noteq (Ne.symm hat)]
  | push event srcHost dstHost barrier =>
    simp only [applyCall, Option.map_eq_some'] at h
    obtain ⟨⟨t, p'⟩, hp, rfl⟩ := h
    simp [serviceOrder, addedHosts,
      threads_push policy p' event srcHost dstHost barrier t hp]
  | pop s barrier =>
    have h' := h
    simp only [applyCall, Option.map_eq_some'] at h'
    obtain ⟨⟨ev, p'⟩, hp, rfl⟩ := h'
    simp only [addedHosts, List.append_nil]
    rcases ht : policy.threadToThreadDataMap s with _ | tdata
    · simp only [schedulerpolicy_pop, ht, Option.some.injEq, Prod.mk.injEq] at hp
      rw [← hp.2]
    · obtain ⟨pre, rest, hu, _, hthreads⟩ :=
        schedulerpolicy_pop_fifos tc policy p' s barrier tdata ev ht hp
      by_cases hs : s = self
      · subst hs
        have hclean : ¬ tdata.currentBarrier < barrier ∨ tdata.unprocessedHosts = [] ∨
            tdata.processedHosts = [] := by
          simp only [disciplined, cleanTransition, ht, h, decide_True, Bool.not_true,
            Bool.false_or, Bool.and_true, Bool.or_eq_true, Bool.not_eq_true',
            decide_eq_false_iff_not, gt_iff_lt, List.isEmpty_iff, or_assoc] at hd
          exact hd
        simp only [serviceOrder, hthreads, Function.update_same, ht]
        rw [List.append_assoc, ← hu]
        exact serviceOrder_roundTransition tdata barrier hclean
      · simp only [serviceOrder, hthreads, Function.update_noteq (Ne.symm hs)]

theorem disciplined_cons (tc : TimeConstants) (self : Thread)
    (policy policy' : SchedulerPolicy) (c : Call) (cs : List Call)
    (h : applyCall tc policy c = some policy')
    (hd : disciplined tc self policy (c :: cs) = true) :
    disciplined tc self policy [c] = true ∧ disciplined tc self policy' cs = true := by
  simp only [disciplined, h, Bool.and_eq_true] at hd ⊢
  exact ⟨⟨hd.1, trivial⟩, hd.2⟩

/-- Along a disciplined execution the service order of thread `self` is its
service order at the start followed by the hosts added for it, in call order. -/
theorem serviceOrder_applyCalls (tc : TimeConstants) (self : Thread) (calls : List Call) :
    ∀ (policy policy' : SchedulerPolicy), applyCalls tc policy calls = some policy' →
      disciplined tc self policy calls = true →
      serviceOrder policy' self = serviceOrder policy self ++ addedHosts self calls := by
  induction calls with
  | nil =>
    intro policy policy' h _
    simp only [applyCalls, Option.some.injEq] at h
    subst h
    simp [addedHosts]
  | cons c cs ih =>
    intro policy policy' h hd
    simp only [applyCalls] at h
    rcases hc : applyCall tc policy c with _ | p₁
    · simp [hc] at h
    · rw [hc] at h
      simp only at h
      obtain ⟨hd₁, hd₂⟩ := disciplined_cons tc self policy p₁ c cs hc hd
      rw [ih p₁ policy' h hd₂, serviceOrder_applyCall tc self policy p₁ c hc hd₁,
        addedHosts_cons self c cs, List.append_assoc]

/-! ## Contract of `schedulerpolicy_pop` and `schedulerpolicy_push` -/

/-- C1: whenever `schedulerpolicy_pop` called with `barrier` returns an event,
the time of that event is strictly below `barrier`, in every policy state and
whatever the stored `currentBarrier` of the thread is. -/
theorem schedulerpolicy_pop_time_lt_barrier (tc : TimeConstants) (policy : SchedulerPolicy)
    (self : Thread) (barrier : SimulationTime) (e : Event)
    (h : (schedulerpolicy_pop tc policy self barrier).map Prod.fst = some (some e)) :
    e.time < barrier := by
  unfold schedulerpolicy_pop at h
  rcases ht : policy.threadToThreadDataMap self with _ | tdata
  · simp [ht] at h
  · rw [ht] at h
    simp only at h
    rcases hs : popScan tc (emutime_add_simtime tc.EMUTIME_SIMULATION_START barrier)
        policy.hostToQueueDataMap (roundTransition tdata barrier).unprocessedHosts
        (roundTransition tdata barrier).processedHosts with _ | r
    · simp [hs] at h
    · rw [hs] at h
      simp only [Option.map_some', Option.some.injEq] at h
      have := popScan_event_lt tc _ _ _ _ r e hs h
      simp only [emutime_add_simtime] at this
      exact Nat.lt_of_add_lt_add_left this

/-- C1 at a concrete state: thread 7 is in a round with `currentBarrier = 20`
and calls `pop(5)`; the event returned has time 3. -/
theorem schedulerpolicy_pop_time_lt_barrier_witness :
    (schedulerpolicy_pop tcEpoch midRoundPolicy 7 5).map Prod.fst = some (some ⟨3, 1⟩) ∧
      (3 : Nat) < 5 :=
  ⟨by decide, schedulerpolicy_pop_time_lt_barrier tcEpoch midRoundPolicy 7 5 ⟨3, 1⟩ (by decide)⟩

/-- C2: a push with `srcHost ≠ dstHost` to a registered destination stores the
event with time `max event.time barrier` at the tail of the destination queue
and returns exactly that time; the stored time is `barrier` when the original
time was below `barrier`, and it is never below `barrier`. -/
theorem schedulerpolicy_push_cross_host (policy : SchedulerPolicy) (event : Event)
    (srcHost dstHost : Host) (barrier : SimulationTime) (qdata : ThreadSafeEventQueue)
    (hne : srcHost ≠ dstHost) (hreg : policy.hostToQueueDataMap dstHost = some qdata) :
    ∃ policy',
      schedulerpolicy_push policy event srcHost dstHost barrier =
        some (max event.time barrier, policy') ∧
      policy'.hostToQueueDataMap dstHost =
        some (eventqueue_push qdata
          { time := max event.time barrier, payload := event.payload }) ∧
      (event.time < barrier → max event.time barrier = barrier) ∧
      barrier ≤ max event.time barrier := by
  refine ⟨{ policy with
      hostToQueueDataMap :=
        Function.update policy.hostToQueueDataMap dstHost
          (some (eventqueue_push qdata
            { time := max event.time barrier, payload := event.payload })) },
    ?_, by simp, fun h => max_eq_right (le_of_lt h), le_max_right _ _⟩
  by_cases hlt : event.time < barrier
  · have hmax : max event.time barrier = barrier := max_eq_right (le_of_lt hlt)
    simp only [schedulerpolicy_push, event_getTime, event_setTime, hreg, hne, ne_eq,
      not_false_eq_true, hlt, and_self, if_true, hmax]
  · have hmax : max event.time barrier = event.time := max_eq_left (not_lt.1 hlt)
    simp only [schedulerpolicy_push, event_getTime, hreg, hlt, and_false, if_false, hmax]

/-- C2 at a concrete state: an event at time 2 pushed from host 1 to host 2
with barrier 10 is stored with time 10, and 10 is returned. -/
theorem schedulerpolicy_push_cross_host_witness :
    ∃ policy',
      schedulerpolicy_push midRoundPolicy ⟨2, 9⟩ 1 2 10 = some (10, policy') ∧
      policy'.hostToQueueDataMap 2 = some [⟨10, 9⟩] := by
  obtain ⟨policy', h1, h2, _, _⟩ :=
    schedulerpolicy_push_cross_host midRoundPolicy ⟨2, 9⟩ 1 2 10 [] (by decide) rfl
  exact ⟨policy', h1, h2⟩

/-- C3: a push to a registered destination with `srcHost = dstHost` or with
`event.time ≥ barrier` stores the event unchanged at the tail of the
destination queue and returns its original time. -/
theorem schedulerpolicy_push_unchanged (policy : SchedulerPolicy) (event : Event)
    (srcHost dstHost : Host) (barrier : SimulationTime) (qdata : ThreadSafeEventQueue)
    (hcase : srcHost = dstHost ∨ barrier ≤ event.time)
    (hreg : policy.hostToQueueDataMap dstHost = some qdata) :
    ∃ policy',
      schedulerpolicy_push policy event srcHost dstHost barrier =
        some (event.time, policy') ∧
      policy'.hostToQueueDataMap dstHost = some (eventqueue_push qdata event) := by
  have hcond : ¬ (srcHost ≠ dstHost ∧ event.time < barrier) := by
    rintro ⟨h1, h2⟩
    rcases hcase with h | h
    · exact h1 h
    · exact absurd h2 (not_lt.2 h)
  refine ⟨{ policy with
      hostToQueueDataMap :=
        Function.update policy.hostToQueueDataMap dstHost
          (some (eventqueue_push qdata event)) }, ?_, by simp⟩
  simp only [schedulerpolicy_push, event_getTime, hreg, hcond, if_false]

/-- C3 at a concrete state: an event at time 2 pushed from host 1 to itself with
barrier 10 keeps time 2 (it is not lifted), and 2 is returned. -/
theorem schedulerpolicy_push_unchanged_witness :
    ∃ policy',
      schedulerpolicy_push midRoundPolicy ⟨2, 9⟩ 1 1 10 = some (2, policy') ∧
      policy'.hostToQueueDataMap 1 = some [⟨4, 2⟩, ⟨3, 1⟩, ⟨2, 9⟩] :=
  schedulerpolicy_push_unchanged midRoundPolicy ⟨2, 9⟩ 1 1 10 [⟨4, 2⟩, ⟨3, 1⟩]
    (Or.inl rfl) rfl

/-- C5, as stated, fails: after `add_host(1, T7); add_host(2, T7);
push(e@5, 1, 1, 0); push(e@3, 2, 2, 0)` three calls `pop(10)` return the event
at time 5, then the event at time 3, then no event: the two events come out in
decreasing time order. -/
theorem popRepeat_time_order_counterexample :
    applyCalls tcZero schedulerpolicy_new crossOrderCalls = some crossOrderPolicy ∧
    crossOrderPolicy.threadToThreadDataMap 7 =
      some { allHosts := none, unprocessedHosts := [1, 2], processedHosts := [],
             currentBarrier := 0 } ∧
    (popRepeat tcZero 7 10 3 crossOrderPolicy).map Prod.fst =
      some [some ⟨5, 1⟩, some ⟨3, 2⟩, none] ∧
    ¬ List.Sorted timeLE [⟨5, 1⟩, ⟨3, 2⟩] :=
  ⟨rfl, rfl, by decide, by decide⟩

/-- C5, amended: let thread `self` have distinct assigned hosts, all with a
queue, let `barrier` be larger than every stored event time, and let the call
scan all assigned hosts (`processed` is empty or `barrier > currentBarrier`).
With `N` the number of stored events, `N + 1` successive calls `pop(barrier)`
return exactly the stored events, each once, host after host in the order
`unprocessed ++ processed`, the events of each host in non-decreasing time
order (ties in push order), and then no event. -/
theorem popRepeat_drains_host_by_host (tc : TimeConstants) (policy : SchedulerPolicy)
    (self : Thread) (barrier : SimulationTime) (tdata : HostSingleThreadData)
    (ht : policy.threadToThreadDataMap self = some tdata)
    (hround : tdata.processedHosts = [] ∨ tdata.currentBarrier < barrier)
    (hnd : (tdata.unprocessedHosts ++ tdata.processedHosts).Nodup)
    (hall : ∀ host ∈ tdata.unprocessedHosts ++ tdata.processedHosts,
      ∃ q, policy.hostToQueueDataMap host = some q ∧ ∀ e ∈ q, e.time < barrier) :
    (popRepeat tc self barrier
        ((drainOrder policy.hostToQueueDataMap
          (tdata.unprocessedHosts ++ tdata.processedHosts)).length + 1) policy).map Prod.fst =
      some ((drainOrder policy.hostToQueueDataMap
          (tdata.unprocessedHosts ++ tdata.processedHosts)).map some ++ [none]) ∧
    (drainOrder policy.hostToQueueDataMap
        (tdata.unprocessedHosts ++ tdata.processedHosts)).Perm
      ((tdata.unprocessedHosts ++ tdata.processedHosts).flatMap
        (queueOf policy.hostToQueueDataMap)) ∧
    (drainOrder policy.hostToQueueDataMap
        (tdata.unprocessedHosts ++ tdata.processedHosts)).length =
      ((tdata.unprocessedHosts ++ tdata.processedHosts).flatMap
        (queueOf policy.hostToQueueDataMap)).length ∧
    ∀ host ∈ tdata.unprocessedHosts ++ tdata.processedHosts,
      (popOrder (queueOf policy.hostToQueueDataMap host)).Sorted timeLE ∧
      (popOrder (queueOf policy.hostToQueueDataMap host)).Perm
        (queueOf policy.hostToQueueDataMap host) := by
  have hu : (roundTransition tdata barrier).unprocessedHosts =
      tdata.unprocessedHosts ++ tdata.processedHosts := by
    by_cases hlt : tdata.currentBarrier < barrier
    · rw [roundTransition_of_lt tdata barrier hlt]
    · rw [roundTransition_of_le tdata barrier (not_lt.1 hlt)]
      rcases hround with hp | hlt'
      · rw [hp]; simp
      · exact absurd hlt' hlt
  refine ⟨?_, drainOrder_perm _ _, (drainOrder_perm _ _).length_eq, ?_⟩
  · rw [popRepeat_eq_scanRepeat tc self barrier _ policy tdata ht, hu]
    exact scanRepeat_drain tc barrier _ hnd policy.hostToQueueDataMap _ hall
  · intro host _
    exact ⟨popOrder_sorted _, popOrder_perm _⟩

/-- C5, amended, at a concrete state: with hosts 1 (event at 5) and 2 (event at
3) three calls `pop(10)` return the event of host 1, the event of host 2, and
then no event. -/
theorem popRepeat_drains_host_by_host_witness :
    (popRepeat tcZero 7 10
        ((drainOrder crossOrderPolicy.hostToQueueDataMap ([1, 2] ++ [])).length + 1)
        crossOrderPolicy).map Prod.fst =
      some ((drainOrder crossOrderPolicy.hostToQueueDataMap ([1, 2] ++ [])).map some ++
        [none]) ∧
    drainOrder crossOrderPolicy.hostToQueueDataMap ([1, 2] ++ []) = [⟨5, 1⟩, ⟨3, 2⟩] :=
  ⟨(popRepeat_drains_host_by_host tcZero crossOrderPolicy 7 10
      { allHosts := none, unprocessedHosts := [1, 2], processedHosts := [],
        currentBarrier := 0 }
      rfl (Or.inl rfl) (by decide)
      (by
        intro host hh
        simp only [List.append_nil, List.mem_cons, List.mem_singleton, List.not_mem_nil,
          or_false] at hh
        rcases hh with rfl | rfl
        · exact ⟨[⟨5, 1⟩], rfl, by decide⟩
        · exact ⟨[⟨3, 2⟩], rfl, by decide⟩)).1,
    by decide⟩

/-- C6, as stated, fails: in the execution `add_host(1, T7); push(e@5, 1, 1, 0);
pop(10); push(e@3, 1, 1, 0); pop(10)` no assertion fails and the two pops
return, from the queue of host 1, the event at time 5 and then the event at
time 3. -/
theorem poppedEvents_sorted_counterexample :
    (applyCalls tcZero schedulerpolicy_new latePushCalls).isSome = true ∧
    poppedEvents (queueOps tcZero 1 schedulerpolicy_new latePushCalls) =
      [⟨5, 1⟩, ⟨3, 2⟩] ∧
    ¬ (poppedEvents (queueOps tcZero 1 schedulerpolicy_new latePushCalls)).Sorted timeLE := by
  decide

/-- C6, amended: in every execution from `schedulerpolicy_new` in which no push
stores, in the queue of `host`, an event with a time below that of an event
already popped from that queue, the events that pop returns from the queue of
`host` are in non-decreasing time order. -/
theorem poppedEvents_sorted (tc : TimeConstants) (host : Host) (calls : List Call)
    (h : noPushBehind 0 (queueOps tc host schedulerpolicy_new calls)) :
    (poppedEvents (queueOps tc host schedulerpolicy_new calls)).Sorted timeLE :=
  (popped_sorted_from_bound tc host calls schedulerpolicy_new 0
    (fun _ _ => Nat.zero_le _) h).1

/-- C6, amended, at a concrete execution: `add_host(1, T7); push(e@5, 1, 1, 0);
push(e@3, 1, 1, 0); pop(10); push(e@4, 1, 1, 0); pop(10); pop(10)` pops the
events of host 1 at times 3, 4, 5. -/
theorem poppedEvents_sorted_witness :
    poppedEvents (queueOps tcZero 1 schedulerpolicy_new orderedPushCalls) =
      [⟨3, 2⟩, ⟨4, 3⟩, ⟨5, 1⟩] ∧
    (poppedEvents (queueOps tcZero 1 schedulerpolicy_new orderedPushCalls)).Sorted timeLE :=
  ⟨by decide, poppedEvents_sorted tcZero 1 orderedPushCalls (by decide)⟩

/-- C7: for a thread whose hosts all have a queue, `schedulerpolicy_getNextTime`
returns a time `r` that is at most the time of every event queued in any host
of the thread (in `unprocessedHosts` or in `processedHosts`) and at most
`SIMTIME_MAX`; `r` is `SIMTIME_MAX` or the time of one of these events, so it is
their minimum; it is `SIMTIME_MAX` when no host of the thread has an event and
when the thread has no ThreadState. -/
theorem schedulerpolicy_getNextTime_minimum (tc : TimeConstants) (policy : SchedulerPolicy)
    (self : Thread)
    (hreg : ∀ host ∈ threadHosts policy self, ∃ q, policy.hostToQueueDataMap host = some q) :
    ∃ r, schedulerpolicy_getNextTime tc policy self = some r ∧
      (∀ e ∈ threadEvents policy self, r ≤ e.time) ∧
      r ≤ tc.SIMTIME_MAX ∧
      (r = tc.SIMTIME_MAX ∨ ∃ e ∈ threadEvents policy self, r = e.time) ∧
      ((∃ e ∈ threadEvents policy self, e.time ≤ tc.SIMTIME_MAX) →
        ∃ e ∈ threadEvents policy self, r = e.time) ∧
      (threadEvents policy self = [] → r = tc.SIMTIME_MAX) ∧
      (policy.threadToThreadDataMap self = none → r = tc.SIMTIME_MAX) := by
  have key : ∃ r, schedulerpolicy_getNextTime tc policy self = some r ∧
      (∀ e ∈ threadEvents policy self, r ≤ e.time) ∧ r ≤ tc.SIMTIME_MAX ∧
      (r = tc.SIMTIME_MAX ∨ ∃ e ∈ threadEvents policy self, r = e.time) ∧
      (policy.threadToThreadDataMap self = none → r = tc.SIMTIME_MAX) := by
    unfold schedulerpolicy_getNextTime threadEvents
    unfold threadHosts at hreg ⊢
    rcases ht : policy.threadToThreadDataMap self with _ | tdata
    · exact ⟨tc.SIMTIME_MAX, rfl, by simp, le_rfl, Or.inl rfl, fun _ => rfl⟩
    · rw [ht] at hreg
      simp only at hreg ⊢
      obtain ⟨r₁, h₁, hle₁, hall₁, hatt₁⟩ :=
        findMinTimeForeach_spec tc policy tdata.unprocessedHosts tc.SIMTIME_MAX
          (fun x hx => hreg x (List.mem_append_left _ hx))
      obtain ⟨r, h₂, hle₂, hall₂, hatt₂⟩ :=
        findMinTimeForeach_spec tc policy tdata.processedHosts r₁
          (fun x hx => hreg x (List.mem_append_right _ hx))
      refine ⟨r, ?_, ?_, le_trans hle₂ hle₁, ?_, fun h => by simp at h⟩
      · rw [h₁]; exact h₂
      · intro e he
        rw [List.flatMap_append, List.mem_append] at he
        rcases he with he | he
        · exact le_trans hle₂ (hall₁ e he)
        · exact hall₂ e he
      · rcases hatt₂ with hr | ⟨e, he, hr⟩
        · rcases hatt₁ with hr₁ | ⟨e, he, hr₁⟩
          · left; rw [hr, hr₁]
          · right
            refine ⟨e, ?_, by rw [hr, hr₁]⟩
            rw [List.flatMap_append, List.mem_append]
            exact Or.inl he
        · right
          refine ⟨e, ?_, hr⟩
          rw [List.flatMap_append, List.mem_append]
          exact Or.inr he
  obtain ⟨r, hr, hall, hmax, hatt, hnone⟩ := key
  refine ⟨r, hr, hall, hmax, hatt, ?_, ?_, hnone⟩
  · rintro ⟨e, he, hle⟩
    rcases hatt with h | h
    · exact ⟨e, he, le_antisymm (hall e he) (h ▸ hle)⟩
    · exact h
  · intro hnil
    rcases hatt with h | ⟨e, he, _⟩
    · exact h
    · rw [hnil] at he; simp at he

/-- C7 at a concrete state: thread 7 owns host 1 (events at 4 and 3) and host 2
(no event); with `SIMULATION_START = 946684800` the next time is 3. -/
theorem schedulerpolicy_getNextTime_minimum_witness :
    schedulerpolicy_getNextTime tcEpoch midRoundPolicy 7 = some 3 ∧
    ∃ r, schedulerpolicy_getNextTime tcEpoch midRoundPolicy 7 = some r ∧
      (∀ e ∈ threadEvents midRoundPolicy 7, r ≤ e.time) ∧
      r ≤ tcEpoch.SIMTIME_MAX ∧
      (r = tcEpoch.SIMTIME_MAX ∨ ∃ e ∈ threadEvents midRoundPolicy 7, r = e.time) ∧
      ((∃ e ∈ threadEvents midRoundPolicy 7, e.time ≤ tcEpoch.SIMTIME_MAX) →
        ∃ e ∈ threadEvents midRoundPolicy 7, r = e.time) ∧
      (threadEvents midRoundPolicy 7 = [] → r = tcEpoch.SIMTIME_MAX) ∧
      (midRoundPolicy.threadToThreadDataMap 7 = none → r = tcEpoch.SIMTIME_MAX) :=
  ⟨by decide,
    schedulerpolicy_getNextTime_minimum tcEpoch midRoundPolicy 7 (by
      intro host hh
      have hh' : host ∈ [1, 2] := hh
      simp only [List.mem_cons, List.mem_singleton, List.not_mem_nil, or_false] at hh'
      rcases hh' with rfl | rfl
      · exact ⟨_, rfl⟩
      · exact ⟨_, rfl⟩)⟩

/-- C8: in every state reached from `schedulerpolicy_new` by `add_host`, `push`
and `pop` calls, `schedulerpolicy_getAssignedHosts` for a thread that has a
ThreadState returns a sequence that holds exactly the hosts passed to
`add_host` for that thread, each as many times as it was passed: it is a
permutation of them. -/
theorem schedulerpolicy_getAssignedHosts_exact (tc : TimeConstants) (calls : List Call)
    (policy : SchedulerPolicy) (self : Thread) (tdata : HostSingleThreadData)
    (hrun : applyCalls tc schedulerpolicy_new calls = some policy)
    (ht : policy.threadToThreadDataMap self = some tdata) :
    ∃ hosts, (schedulerpolicy_getAssignedHosts policy self).1 = some hosts ∧
      hosts.Perm (addedHosts self calls) ∧
      (∀ host, host ∈ hosts ↔ host ∈ addedHosts self calls) ∧
      ∀ host, hosts.count host = (addedHosts self calls).count host := by
  have hperm : (tdata.processedHosts ++ tdata.unprocessedHosts).Perm
      (addedHosts self calls) := by
    have h := threadHosts_applyCalls tc calls schedulerpolicy_new policy hrun self
    rw [threadHosts_new, List.nil_append] at h
    simp only [threadHosts, ht] at h
    exact List.perm_append_comm.trans h
  exact ⟨_, schedulerpolicy_getAssignedHosts_fst policy self tdata ht, hperm,
    fun host => hperm.mem_iff, fun host => hperm.count_eq host⟩

/-- C8 at a concrete execution: after `add_host(1, T7); add_host(2, T7);
add_host(3, T8); push(e@1, 2, 2, 0); pop(5)` thread 7 has host 2 in `unprocessed`
and host 1 in `processed`, and its assigned hosts are 1 and 2. -/
theorem schedulerpolicy_getAssignedHosts_exact_witness :
    (schedulerpolicy_getAssignedHosts partitionPolicy 7).1 = some [1, 2] ∧
    ∃ hosts, (schedulerpolicy_getAssignedHosts partitionPolicy 7).1 = some hosts ∧
      hosts.Perm (addedHosts 7 partitionCalls) ∧
      (∀ host, host ∈ hosts ↔ host ∈ addedHosts 7 partitionCalls) ∧
      ∀ host, hosts.count host = (addedHosts 7 partitionCalls).count host :=
  ⟨by decide,
    schedulerpolicy_getAssignedHosts_exact tcZero partitionCalls partitionPolicy 7
      { allHosts := none, unprocessedHosts := [2], processedHosts := [1], currentBarrier := 5 }
      rfl rfl⟩

/-- C9: in every state reached from `schedulerpolicy_new` by an execution that
calls `add_host` at most once per host, each added host occurs in the
ThreadState of the thread it was added for, exactly once in
`unprocessedHosts ++ processedHosts` (so in exactly one of the two FIFOs), and
in no other ThreadState. -/
theorem partition_invariant (tc : TimeConstants) (calls : List Call)
    (policy : SchedulerPolicy) (host : Host) (thread : Thread)
    (hrun : applyCalls tc schedulerpolicy_new calls = some policy)
    (hnd : (allAddedHosts calls).Nodup)
    (hadd : Call.addHost host thread ∈ calls) :
    (∃ tdata, policy.threadToThreadDataMap thread = some tdata ∧
      (tdata.unprocessedHosts ++ tdata.processedHosts).count host = 1 ∧
      tdata.unprocessedHosts.count host + tdata.processedHosts.count host = 1) ∧
    ∀ (t' : Thread) (tdata' : HostSingleThreadData),
      policy.threadToThreadDataMap t' = some tdata' →
      host ∈ tdata'.unprocessedHosts ++ tdata'.processedHosts → t' = thread := by
  have hperm : ∀ t, (threadHosts policy t).Perm (addedHosts t calls) := by
    intro t
    have h := threadHosts_applyCalls tc calls schedulerpolicy_new policy hrun t
    rwa [threadHosts_new, List.nil_append] at h
  have hall : (allAddedHosts calls).count host ≤ 1 := List.nodup_iff_count_le_one.1 hnd host
  have hmem : 1 ≤ (addedHosts thread calls).count host :=
    List.count_pos_iff.2 (mem_addedHosts_of_mem host thread calls hadd)
  have hother : ∀ t', t' ≠ thread → (addedHosts t' calls).count host = 0 := by
    intro t' hne
    have := count_addedHosts_le host t' thread hne calls
    omega
  have hone : (threadHosts policy thread).count host = 1 := by
    rw [(hperm thread).count_eq host]
    have := count_addedHosts_le host thread (thread + 1) (Nat.ne_of_lt (Nat.lt_succ_self _)) calls
    omega
  refine ⟨?_, ?_⟩
  · rcases ht : policy.threadToThreadDataMap thread with _ | tdata
    · simp [threadHosts, ht] at hone
    · simp only [threadHosts, ht] at hone
      exact ⟨tdata, rfl, hone, by rw [← List.count_append]; exact hone⟩
  · intro t' tdata' ht' hin
    by_contra hne
    have h0 := hother t' hne
    rw [← (hperm t').count_eq host] at h0
    simp only [threadHosts, ht'] at h0
    exact absurd (List.count_pos_iff.2 hin) (by omega)

/-- C9 at a concrete execution: after `add_host(1, T7); add_host(2, T7);
add_host(3, T8); push(e@1, 2, 2, 0); pop(5)` host 1 occurs once in the FIFOs of
thread 7 (in `processed`) and in no other ThreadState. -/
theorem partition_invariant_witness :
    (∃ tdata, partitionPolicy.threadToThreadDataMap 7 = some tdata ∧
      (tdata.unprocessedHosts ++ tdata.processedHosts).count 1 = 1 ∧
      tdata.unprocessedHosts.count 1 + tdata.processedHosts.count 1 = 1) ∧
    ∀ (t' : Thread) (tdata' : HostSingleThreadData),
      partitionPolicy.threadToThreadDataMap t' = some tdata' →
      1 ∈ tdata'.unprocessedHosts ++ tdata'.processedHosts → t' = 7 :=
  partition_invariant tcZero partitionCalls partitionPolicy 1 7 rfl (by decide) (by decide)

/-- C10: let `u` and `p` be the FIFOs `unprocessedHosts` and `processedHosts`
after the round-transition step of `schedulerpolicy_pop(barrier)`. If
`u = pre ++ host :: rest`, every host of `pre` is drained below `barrier` and
the earliest event `m` of `host` is below `barrier`, the call returns `m`,
removes it from the queue of `host`, moves `pre` in order to the tail of
`processed` and leaves `host :: rest` as `unprocessed`. If every host of `u` is
drained below `barrier`, the call returns no event, leaves the queues alone and
moves all of `u` in order to the tail of `processed`. -/
theorem schedulerpolicy_pop_drain_order (tc : TimeConstants) (policy : SchedulerPolicy)
    (self : Thread) (barrier : SimulationTime) (tdata : HostSingleThreadData)
    (ht : policy.threadToThreadDataMap self = some tdata) :
    (∀ (pre : List Host) (host : Host) (rest : List Host) (m : Event)
        (q' : ThreadSafeEventQueue),
      (roundTransition tdata barrier).unprocessedHosts = pre ++ host :: rest →
      (∀ x ∈ pre, drainedBelow policy.hostToQueueDataMap x barrier) →
      earliestBelow policy.hostToQueueDataMap host barrier m q' →
      schedulerpolicy_pop tc policy self barrier =
        some (some m,
          { hostToQueueDataMap := Function.update policy.hostToQueueDataMap host (some q')
            threadToThreadDataMap :=
              Function.update policy.threadToThreadDataMap self
                (some { roundTransition tdata barrier with
                  unprocessedHosts := host :: rest
                  processedHosts := (roundTransition tdata barrier).processedHosts ++ pre }) })) ∧
    ((∀ x ∈ (roundTransition tdata barrier).unprocessedHosts,
        drainedBelow policy.hostToQueueDataMap x barrier) →
      schedulerpolicy_pop tc policy self barrier =
        some (none,
          { hostToQueueDataMap := policy.hostToQueueDataMap
            threadToThreadDataMap :=
              Function.update policy.threadToThreadDataMap self
                (some { roundTransition tdata barrier with
                  unprocessedHosts := []
                  processedHosts := (roundTransition tdata barrier).processedHosts ++
                    (roundTransition tdata barrier).unprocessedHosts }) })) := by
  refine ⟨?_, ?_⟩
  · intro pre host rest m q' hu hpre hb
    rw [schedulerpolicy_pop_of_tdata tc policy self barrier tdata ht, hu,
      popScan_first_hit tc barrier _ pre _ host rest m q' hpre hb]
    rfl
  · intro hall
    rw [schedulerpolicy_pop_of_tdata tc policy self barrier tdata ht,
      popScan_all_drained tc barrier _ _ _ hall]
    rfl

/-- C10 at a concrete state: hosts 1, 2, 3 are unprocessed, host 1 has no
event, host 2 holds events at 6 and 1; `pop(5)` returns the event at time 1 of
host 2, moves host 1 to `processed` and keeps host 2 at the head of
`unprocessed`, before host 3 (whose event at 2 is not looked at). -/
theorem schedulerpolicy_pop_drain_order_witness :
    schedulerpolicy_pop tcEpoch skipFirstPolicy 7 5 =
      some (some ⟨1, 2⟩,
        { hostToQueueDataMap :=
            Function.update skipFirstPolicy.hostToQueueDataMap 2 (some [⟨6, 1⟩])
          threadToThreadDataMap :=
            Function.update skipFirstPolicy.threadToThreadDataMap 7
              (some { allHosts := none, unprocessedHosts := [2, 3], processedHosts := [1],
                      currentBarrier := 5 }) }) :=
  (schedulerpolicy_pop_drain_order tcEpoch skipFirstPolicy 7 5
      { allHosts := none, unprocessedHosts := [1, 2, 3], processedHosts := [],
        currentBarrier := 0 } rfl).1
    [1] 2 [3] ⟨1, 2⟩ [⟨6, 1⟩] rfl
    (by
      intro x hx
      simp only [List.mem_singleton] at hx
      subst hx
      exact ⟨[], rfl, by simp⟩)
    ⟨[⟨6, 1⟩, ⟨1, 2⟩], rfl, rfl, by decide⟩

/-- C13, as stated, fails when `SIMULATION_START` is not zero: in
`midRoundPolicy` host 1 holds events at 4 and 3 and, with
`SIMULATION_START = 946684800`, `schedulerpolicy_nextHostEventTime` returns
`946684803`, while the event that the next pop takes from the queue of host 1
(through the queue itself and through `schedulerpolicy_pop`) has time 3. -/
theorem schedulerpolicy_nextHostEventTime_time_counterexample :
    midRoundPolicy.hostToQueueDataMap 1 = some [⟨4, 2⟩, ⟨3, 1⟩] ∧
    (schedulerpolicy_nextHostEventTime tcEpoch midRoundPolicy 1).map Prod.fst =
      some (some 946684803) ∧
    (eventqueue_pop [⟨4, 2⟩, ⟨3, 1⟩]).1 = some ⟨3, 1⟩ ∧
    (schedulerpolicy_pop tcEpoch midRoundPolicy 7 5).map Prod.fst = some (some ⟨3, 1⟩) ∧
    (946684803 : EmulatedTime) ≠ (⟨3, 1⟩ : Event).time := by
  decide

/-- C13, amended: for a host with a queue, `schedulerpolicy_nextHostEventTime`
leaves the policy as it is and returns `EMUTIME_INVALID` (here `none`) when the
queue is empty, and otherwise `SIMULATION_START + time` for the event that the
next pop from that queue returns, the time of that event as an emulated time;
this is the time of the event itself when `SIMULATION_START` is zero. The same
holds for the event that a later `schedulerpolicy_pop` takes from this host. -/
theorem schedulerpolicy_nextHostEventTime_next_pop (tc : TimeConstants)
    (policy : SchedulerPolicy) (host : Host) (q : ThreadSafeEventQueue)
    (hq : policy.hostToQueueDataMap host = some q) :
    (q = [] → schedulerpolicy_nextHostEventTime tc policy host = some (none, policy)) ∧
    (q ≠ [] → ∃ m q', eventqueue_pop q = (some m, q') ∧
      schedulerpolicy_nextHostEventTime tc policy host =
        some (some (tc.EMUTIME_SIMULATION_START + m.time), policy) ∧
      (tc.EMUTIME_SIMULATION_START = 0 →
        schedulerpolicy_nextHostEventTime tc policy host = some (some m.time, policy))) ∧
    (∀ (self : Thread) (barrier : SimulationTime) (m : Event) (policy' : SchedulerPolicy),
      schedulerpolicy_pop tc policy self barrier = some (some m, policy') →
      servedHost policy' self = some host →
      schedulerpolicy_nextHostEventTime tc policy host =
        some (some (tc.EMUTIME_SIMULATION_START + m.time), policy)) ∧
    (schedulerpolicy_nextHostEventTime tc policy host).map Prod.snd = some policy := by
  refine ⟨?_, ?_, ?_, ?_⟩
  · intro hnil
    simp [schedulerpolicy_nextHostEventTime, hq, hnil, eventqueue_nextEventTime,
      eventqueue_peek]
  · intro hne
    rcases hp : eventqueue_pop q with ⟨_ | m, q'⟩
    · exact absurd (eventqueue_pop_none hp).1 hne
    · have hval : schedulerpolicy_nextHostEventTime tc policy host =
          some (some (tc.EMUTIME_SIMULATION_START + m.time), policy) := by
        simp [schedulerpolicy_nextHostEventTime, hq, eventqueue_nextEventTime_of_pop tc hp]
      refine ⟨m, q', rfl, hval, ?_⟩
      intro h0
      rw [hval, h0, Nat.zero_add]
  · intro self barrier m policy' hpop hserved
    rcases schedulerpolicy_pop_cases tc policy self barrier (some m) policy' hpop with
      ⟨h, _⟩ | ⟨m', host', q', hm, hserved', ⟨q₀, hq₀, hp, _⟩, _⟩
    · simp at h
    · simp only [Option.some.injEq] at hm
      subst hm
      rw [hserved] at hserved'
      simp only [Option.some.injEq] at hserved'
      subst hserved'
      simp [schedulerpolicy_nextHostEventTime, hq₀, eventqueue_nextEventTime_of_pop tc hp]
  · simp [schedulerpolicy_nextHostEventTime, hq]

/-- C13, amended, at concrete states: in `midRoundPolicy` host 1 holds events
at 4 and 3. With `SIMULATION_START = 0` its next event time is 3, the time of
the event that `pop(5)` then returns; with `SIMULATION_START = 946684800` it is
`946684803`; the policy is left as it is. Host 2 (empty) has no next event
time. -/
theorem schedulerpolicy_nextHostEventTime_next_pop_witness :
    (([⟨4, 2⟩, ⟨3, 1⟩] : ThreadSafeEventQueue) ≠ [] → ∃ m q',
      eventqueue_pop [⟨4, 2⟩, ⟨3, 1⟩] = (some m, q') ∧
      schedulerpolicy_nextHostEventTime tcZero midRoundPolicy 1 =
        some (some (tcZero.EMUTIME_SIMULATION_START + m.time), midRoundPolicy) ∧
      (tcZero.EMUTIME_SIMULATION_START = 0 →
        schedulerpolicy_nextHostEventTime tcZero midRoundPolicy 1 =
          some (some m.time, midRoundPolicy))) ∧
    (schedulerpolicy_nextHostEventTime tcZero midRoundPolicy 1).map Prod.snd =
      some midRoundPolicy ∧
    (schedulerpolicy_nextHostEventTime tcZero midRoundPolicy 1).map Prod.fst =
      some (some 3) ∧
    (schedulerpolicy_pop tcZero midRoundPolicy 7 5).map Prod.fst = some (some ⟨3, 1⟩) ∧
    (schedulerpolicy_nextHostEventTime tcEpoch midRoundPolicy 1).map Prod.fst =
      some (some 946684803) ∧
    (schedulerpolicy_nextHostEventTime tcEpoch midRoundPolicy 2).map Prod.fst = some none :=
  ⟨(schedulerpolicy_nextHostEventTime_next_pop tcZero midRoundPolicy 1 [⟨4, 2⟩, ⟨3, 1⟩]
      rfl).2.1,
    (schedulerpolicy_nextHostEventTime_next_pop tcZero midRoundPolicy 1 [⟨4, 2⟩, ⟨3, 1⟩]
      rfl).2.2.2,
    by decide, by decide, by decide, by decide⟩

/-- C14: `schedulerpolicy_pop` called by a thread that has no ThreadState, as is
the case in every reachable state for a thread for which `add_host` was never
called, returns no event and leaves the whole policy as it was: every queue,
every ThreadState, and still no ThreadState for the caller. -/
theorem schedulerpolicy_pop_idle (tc : TimeConstants) (policy : SchedulerPolicy)
    (self : Thread) (barrier : SimulationTime)
    (hidle : policy.threadToThreadDataMap self = none ∨
      ∃ calls, applyCalls tc schedulerpolicy_new calls = some policy ∧
        addedHosts self calls = []) :
    schedulerpolicy_pop tc policy self barrier = some (none, policy) ∧
    policy.threadToThreadDataMap self = none := by
  have hnone : policy.threadToThreadDataMap self = none := by
    rcases hidle with h | ⟨calls, hrun, hadd⟩
    · exact h
    · have h := threads_isSome_applyCalls tc calls schedulerpolicy_new policy hrun self
      rw [hadd] at h
      rcases ht : policy.threadToThreadDataMap self with _ | tdata
      · rfl
      · rw [ht] at h
        simp [schedulerpolicy_new] at h
  refine ⟨?_, hnone⟩
  simp [schedulerpolicy_pop, hnone]

/-- C14 at a concrete execution: after `add_host(1, T7); add_host(2, T7);
add_host(3, T8); push(e@1, 2, 2, 0); pop(5)` by thread 7, thread 9 was never
given a host; its `pop(100)` returns no event and leaves the policy alone. -/
theorem schedulerpolicy_pop_idle_witness :
    schedulerpolicy_pop tcZero partitionPolicy 9 100 = some (none, partitionPolicy) ∧
    partitionPolicy.threadToThreadDataMap 9 = none :=
  schedulerpolicy_pop_idle tcZero partitionPolicy 9 100
    (Or.inr ⟨partitionCalls, rfl, by decide⟩)

/-- C15: `schedulerpolicy_push` fails (its assertion on the destination queue)
exactly when `dstHost` has no queue, which in a reachable state means that
`dstHost` was not passed to `add_host`; when `dstHost` has a queue the push
succeeds, whatever `srcHost` is, and appends the event (with the stored time it
returns) to that queue, leaving the ThreadStates alone. -/
theorem schedulerpolicy_push_fails_iff (policy : SchedulerPolicy) (event : Event)
    (srcHost dstHost : Host) (barrier : SimulationTime) :
    (schedulerpolicy_push policy event srcHost dstHost barrier = none ↔
      policy.hostToQueueDataMap dstHost = none) ∧
    (∀ q, policy.hostToQueueDataMap dstHost = some q →
      ∃ (t : SimulationTime) (policy' : SchedulerPolicy),
        schedulerpolicy_push policy event srcHost dstHost barrier = some (t, policy') ∧
        policy'.hostToQueueDataMap dstHost =
          some (eventqueue_push q { time := t, payload := event.payload }) ∧
        policy'.threadToThreadDataMap = policy.threadToThreadDataMap) ∧
    (∀ (tc : TimeConstants) (calls : List Call),
      applyCalls tc schedulerpolicy_new calls = some policy →
      (schedulerpolicy_push policy event srcHost dstHost barrier = none ↔
        dstHost ∉ allAddedHosts calls)) := by
  have hiff : schedulerpolicy_push policy event srcHost dstHost barrier = none ↔
      policy.hostToQueueDataMap dstHost = none := by
    unfold schedulerpolicy_push
    rcases hq : policy.hostToQueueDataMap dstHost with _ | q <;> simp
  refine ⟨hiff, ?_, ?_⟩
  · intro q hq
    unfold schedulerpolicy_push
    rw [hq]
    refine ⟨_, _, rfl, ?_, rfl⟩
    simp only [Function.update_same, event_getTime]
    by_cases hc : srcHost ≠ dstHost ∧ event.time < barrier
    · simp [hc, event_setTime]
    · simp [hc]
  · intro tc calls hrun
    rw [hiff]
    have h := hostMap_isSome_applyCalls tc calls schedulerpolicy_new policy hrun dstHost
    rcases hq : policy.hostToQueueDataMap dstHost with _ | q
    · rw [hq] at h
      simp only [Option.isSome_none, Bool.false_eq_true, false_iff, not_or] at h
      simp [h.2]
    · rw [hq] at h
      simp only [Option.isSome_some, true_iff] at h
      rcases h with h | h
      · simp [schedulerpolicy_new] at h
      · simp [h]

/-- C15 at a concrete state: in `midRoundPolicy` hosts 1 and 2 have a queue and
host 5 has none; a push to host 5 fails, a push from the unregistered host 5 to
host 2 succeeds. -/
theorem schedulerpolicy_push_fails_iff_witness :
    schedulerpolicy_push midRoundPolicy ⟨2, 9⟩ 1 5 10 = none ∧
    ∃ (t : SimulationTime) (policy' : SchedulerPolicy),
      schedulerpolicy_push midRoundPolicy ⟨2, 9⟩ 5 2 10 = some (t, policy') ∧
      policy'.hostToQueueDataMap 2 = some (eventqueue_push [] { time := t, payload := 9 }) ∧
      policy'.threadToThreadDataMap = midRoundPolicy.threadToThreadDataMap :=
  ⟨(schedulerpolicy_push_fails_iff midRoundPolicy ⟨2, 9⟩ 1 5 10).1.2 rfl,
    (schedulerpolicy_push_fails_iff midRoundPolicy ⟨2, 9⟩ 5 2 10).2.1 [] rfl⟩

/-- C16: in every state reached from `schedulerpolicy_new` a host has a queue in
the host map exactly when it was passed to `add_host`. The map of
`schedulerpolicy_new` is empty; `add_host` keeps the map as it is when the host
already has a queue and otherwise adds a fresh empty queue for it; `push` and
`pop` neither add nor remove an entry. -/
theorem hostMap_entry_iff_added (tc : TimeConstants) (calls : List Call)
    (policy : SchedulerPolicy)
    (hrun : applyCalls tc schedulerpolicy_new calls = some policy) :
    (∀ h : Host, (policy.hostToQueueDataMap h).isSome = true ↔ h ∈ allAddedHosts calls) ∧
    (∀ h : Host, schedulerpolicy_new.hostToQueueDataMap h = none) ∧
    (∀ (p p' : SchedulerPolicy) (h : Host) (t : Thread),
      schedulerpolicy_addHost p h t = some p' →
      (∀ q, p.hostToQueueDataMap h = some q → p'.hostToQueueDataMap = p.hostToQueueDataMap) ∧
      (p.hostToQueueDataMap h = none →
        p'.hostToQueueDataMap =
          Function.update p.hostToQueueDataMap h (some eventqueue_new))) ∧
    (∀ (p p' : SchedulerPolicy) (e : Event) (s d : Host) (b t : SimulationTime),
      schedulerpolicy_push p e s d b = some (t, p') →
      ∀ x, (p'.hostToQueueDataMap x).isSome = (p.hostToQueueDataMap x).isSome) ∧
    (∀ (p p' : SchedulerPolicy) (self : Thread) (b : SimulationTime) (ev : Option Event),
      schedulerpolicy_pop tc p self b = some (ev, p') →
      ∀ x, (p'.hostToQueueDataMap x).isSome = (p.hostToQueueDataMap x).isSome) := by
  refine ⟨?_, fun _ => rfl, ?_, ?_, ?_⟩
  · intro h
    rw [hostMap_isSome_applyCalls tc calls schedulerpolicy_new policy hrun h]
    simp [schedulerpolicy_new]
  · intro p p' h t hadd
    unfold schedulerpolicy_addHost at hadd
    by_cases h0 : t = 0
    · simp [h0] at hadd
    · simp only [h0, if_false, Option.some.injEq] at hadd
      subst hadd
      refine ⟨?_, ?_⟩
      · intro q hq; simp [hq]
      · intro hq; simp [hq]
  · intro p p' e s d b t h x
    exact hostMap_isSome_push p p' e s d b t h x
  · intro p p' self b ev h x
    exact hostMap_isSome_pop tc p p' self b ev h x

/-- C16 at a concrete execution: after `add_host(1, T7); add_host(2, T7);
add_host(3, T8); push(e@1, 2, 2, 0); pop(5)` host 2 was added and has a queue,
host 4 was not added and has none. -/
theorem hostMap_entry_iff_added_witness :
    ((partitionPolicy.hostToQueueDataMap 2).isSome = true ↔
      2 ∈ allAddedHosts partitionCalls) ∧
    ((partitionPolicy.hostToQueueDataMap 4).isSome = true ↔
      4 ∈ allAddedHosts partitionCalls) ∧
    (partitionPolicy.hostToQueueDataMap 2).isSome = true ∧
    (partitionPolicy.hostToQueueDataMap 4).isSome = false :=
  ⟨(hostMap_entry_iff_added tcZero partitionCalls partitionPolicy rfl).1 2,
    (hostMap_entry_iff_added tcZero partitionCalls partitionPolicy rfl).1 4,
    by decide, by decide⟩

/-- C17: when `schedulerpolicy_pop` is called with a barrier above
`currentBarrier`, the ThreadState handed to the scan loop is the one the spec
describes: `currentBarrier` is the new barrier, `unprocessedHosts` is the old
`unprocessedHosts` followed by the old `processedHosts`, and `processedHosts` is
empty. The code, the loop alone, and (when `unprocessedHosts` is empty and
`processedHosts` is not) the swap alone all give this same state, and the scan
of the call runs on it. -/
theorem roundTransition_refines_spec (tdata : HostSingleThreadData)
    (barrier : SimulationTime) (hlt : tdata.currentBarrier < barrier) :
    roundTransition tdata barrier = roundTransitionSpec tdata barrier ∧
    roundTransitionLoop tdata barrier = roundTransitionSpec tdata barrier ∧
    (tdata.unprocessedHosts = [] → tdata.processedHosts ≠ [] →
      roundTransition tdata barrier = roundTransitionSwap tdata barrier ∧
      roundTransitionSwap tdata barrier = roundTransitionLoop tdata barrier) ∧
    (∀ (tc : TimeConstants) (policy : SchedulerPolicy) (self : Thread),
      policy.threadToThreadDataMap self = some tdata →
      schedulerpolicy_pop tc policy self barrier =
        (popScan tc (emutime_add_simtime tc.EMUTIME_SIMULATION_START barrier)
            policy.hostToQueueDataMap (tdata.unprocessedHosts ++ tdata.processedHosts) []).map
          (fun r =>
            (r.event,
              { hostToQueueDataMap := r.hostMap
                threadToThreadDataMap :=
                  Function.update policy.threadToThreadDataMap self
                    (some { tdata with
                      currentBarrier := barrier
                      unprocessedHosts := r.unprocessed
                      processedHosts := r.processed }) }))) := by
  have hcode : roundTransition tdata barrier = roundTransitionSpec tdata barrier :=
    roundTransition_of_lt tdata barrier hlt
  have hloop : roundTransitionLoop tdata barrier = roundTransitionSpec tdata barrier := by
    simp [roundTransitionLoop, roundTransitionSpec, hlt, drainProcessed_eq]
  refine ⟨hcode, hloop, ?_, ?_⟩
  · intro hu hp
    have hswap : roundTransitionSwap tdata barrier = roundTransitionSpec tdata barrier := by
      simp [roundTransitionSwap, roundTransitionSpec, hu]
    exact ⟨hcode.trans hswap.symm, hswap.trans hloop.symm⟩
  · intro tc policy self ht
    rw [schedulerpolicy_pop_of_tdata tc policy self barrier tdata ht, hcode]
    rfl

/-- C17 at a concrete ThreadState: `unprocessed = [3]`, `processed = [1, 2]`,
barrier 5 raised to 9 gives `unprocessed = [3, 1, 2]`, `processed = []`. -/
theorem roundTransition_refines_spec_witness :
    roundTransition
        { allHosts := none, unprocessedHosts := [3], processedHosts := [1, 2],
          currentBarrier := 5 } 9 =
      { allHosts := none, unprocessedHosts := [3, 1, 2], processedHosts := [],
        currentBarrier := 9 } :=
  (roundTransition_refines_spec
    { allHosts := none, unprocessedHosts := [3], processedHosts := [1, 2],
      currentBarrier := 5 } 9 (by decide)).1

/-- C18: for a thread with a ThreadState `schedulerpolicy_getAssignedHosts`
returns `processedHosts ++ unprocessedHosts`: this is `processedHosts` when
`unprocessedHosts` is empty, `unprocessedHosts` when `processedHosts` is empty,
and the composed sequence otherwise. The call changes neither FIFO nor
`currentBarrier` of the thread, no other ThreadState and no queue. -/
theorem schedulerpolicy_getAssignedHosts_value (policy : SchedulerPolicy) (self : Thread)
    (tdata : HostSingleThreadData)
    (ht : policy.threadToThreadDataMap self = some tdata) :
    (schedulerpolicy_getAssignedHosts policy self).1 =
      some (tdata.processedHosts ++ tdata.unprocessedHosts) ∧
    (tdata.unprocessedHosts = [] →
      schedulerpolicy_getAssignedHosts policy self = (some tdata.processedHosts, policy)) ∧
    (tdata.processedHosts = [] →
      schedulerpolicy_getAssignedHosts policy self = (some tdata.unprocessedHosts, policy)) ∧
    (∃ tdata', (schedulerpolicy_getAssignedHosts policy self).2.threadToThreadDataMap self =
        some tdata' ∧
      tdata'.unprocessedHosts = tdata.unprocessedHosts ∧
      tdata'.processedHosts = tdata.processedHosts ∧
      tdata'.currentBarrier = tdata.currentBarrier) ∧
    (schedulerpolicy_getAssignedHosts policy self).2.hostToQueueDataMap =
      policy.hostToQueueDataMap ∧
    ∀ t, t ≠ self →
      (schedulerpolicy_getAssignedHosts policy self).2.threadToThreadDataMap t =
        policy.threadToThreadDataMap t := by
  refine ⟨schedulerpolicy_getAssignedHosts_fst policy self tdata ht, ?_, ?_, ?_⟩
  · intro hu
    simp [schedulerpolicy_getAssignedHosts, ht, hu]
  · intro hp
    unfold schedulerpolicy_getAssignedHosts
    rw [ht]
    simp only [hp, List.isEmpty_nil, if_true]
    by_cases hu : tdata.unprocessedHosts.isEmpty = true
    · rw [if_pos hu, List.isEmpty_iff.1 hu]
    · rw [if_neg hu]
  · unfold schedulerpolicy_getAssignedHosts
    rw [ht]
    simp only
    by_cases hu : tdata.unprocessedHosts.isEmpty = true
    · rw [if_pos hu]
      exact ⟨⟨tdata, ht, rfl, rfl, rfl⟩, rfl, fun _ _ => rfl⟩
    · rw [if_neg hu]
      by_cases hp : tdata.processedHosts.isEmpty = true
      · rw [if_pos hp]
        exact ⟨⟨tdata, ht, rfl, rfl, rfl⟩, rfl, fun _ _ => rfl⟩
      · rw [if_neg hp]
        refine ⟨⟨{ tdata with
            allHosts := some (tdata.unprocessedHosts.foldl concat_queue_iter
              tdata.processedHosts) }, by simp, rfl, rfl, rfl⟩, rfl, ?_⟩
        intro t hts
        simp [Function.update_noteq hts]

/-- C18 at a concrete state: after `add_host(1, T7); add_host(2, T7);
add_host(3, T8); push(e@1, 2, 2, 0); pop(5)` thread 7 has `processed = [1]` and
`unprocessed = [2]`, both non-empty; the assigned hosts are `[1, 2]`. -/
theorem schedulerpolicy_getAssignedHosts_value_witness :
    (schedulerpolicy_getAssignedHosts partitionPolicy 7).1 = some ([1] ++ [2]) :=
  (schedulerpolicy_getAssignedHosts_value partitionPolicy 7
    { allHosts := none, unprocessedHosts := [2], processedHosts := [1], currentBarrier := 5 }
    rfl).1

/-- C19: for a thread with a ThreadState whose hosts all have a queue (as in
every reachable state) and a barrier above its `currentBarrier`,
`schedulerpolicy_pop` scans all assigned hosts, those in `processedHosts`
included: it returns no event exactly when no assigned host has a queued event
with time below the barrier, and otherwise it returns an event. -/
theorem schedulerpolicy_pop_new_round_complete (tc : TimeConstants)
    (policy : SchedulerPolicy) (self : Thread) (barrier : SimulationTime)
    (tdata : HostSingleThreadData)
    (ht : policy.threadToThreadDataMap self = some tdata)
    (hlt : tdata.currentBarrier < barrier)
    (hreg : ∀ host ∈ tdata.unprocessedHosts ++ tdata.processedHosts,
      ∃ q, policy.hostToQueueDataMap host = some q) :
    ((schedulerpolicy_pop tc policy self barrier).map Prod.fst = some none ↔
      ∀ host ∈ tdata.unprocessedHosts ++ tdata.processedHosts,
        ∀ e ∈ queueOf policy.hostToQueueDataMap host, barrier ≤ e.time) ∧
    ((∃ host ∈ tdata.unprocessedHosts ++ tdata.processedHosts,
        ∃ e ∈ queueOf policy.hostToQueueDataMap host, e.time < barrier) →
      ∃ e, (schedulerpolicy_pop tc policy self barrier).map Prod.fst = some (some e)) := by
  have hu : (roundTransition tdata barrier).unprocessedHosts =
      tdata.unprocessedHosts ++ tdata.processedHosts := by
    rw [roundTransition_of_lt tdata barrier hlt]
  have hdr : (∀ host ∈ tdata.unprocessedHosts ++ tdata.processedHosts,
        drainedBelow policy.hostToQueueDataMap host barrier) ↔
      ∀ host ∈ tdata.unprocessedHosts ++ tdata.processedHosts,
        ∀ e ∈ queueOf policy.hostToQueueDataMap host, barrier ≤ e.time := by
    constructor
    · intro h host hh
      obtain ⟨q, hq⟩ := hreg host hh
      exact (drainedBelow_iff_queueOf barrier hq).1 (h host hh)
    · intro h host hh
      obtain ⟨q, hq⟩ := hreg host hh
      exact (drainedBelow_iff_queueOf barrier hq).2 (h host hh)
  obtain ⟨r, hs⟩ := popScan_some_of_registered tc barrier policy.hostToQueueDataMap
    (roundTransition tdata barrier).unprocessedHosts
    (roundTransition tdata barrier).processedHosts (by rw [hu]; exact hreg)
  have hpop : (schedulerpolicy_pop tc policy self barrier).map Prod.fst = some r.event := by
    rw [schedulerpolicy_pop_of_tdata tc policy self barrier tdata ht, hs]
    rfl
  have hiff : r.event = none ↔
      ∀ host ∈ tdata.unprocessedHosts ++ tdata.processedHosts,
        drainedBelow policy.hostToQueueDataMap host barrier := by
    constructor
    · intro he
      have := popScan_none_drained tc barrier _ _ _ r hs he
      rwa [hu] at this
    · intro hall
      rw [← hu] at hall
      rw [popScan_all_drained tc barrier _ _ _ hall] at hs
      simp only [Option.some.injEq] at hs
      rw [← hs]
  refine ⟨?_, ?_⟩
  · rw [hpop, ← hdr, ← hiff]
    simp
  · rintro ⟨host, hh, e, he, hlt'⟩
    rw [hpop]
    rcases hev : r.event with _ | m
    · have hall := hdr.1 (hiff.1 hev) host hh e he
      exact absurd hlt' (not_lt.2 hall)
    · exact ⟨m, rfl⟩

/-- C19 at a concrete state: in `staleProcessedPolicy` host 1 sits in
`processed` of the round with barrier 10 and holds an event at time 3;
`pop(11)` starts a new round, scans host 1 and returns that event. -/
theorem schedulerpolicy_pop_new_round_complete_witness :
    ∃ e, (schedulerpolicy_pop tcZero staleProcessedPolicy 7 11).map Prod.fst =
      some (some e) :=
  (schedulerpolicy_pop_new_round_complete tcZero staleProcessedPolicy 7 11
    { allHosts := none, unprocessedHosts := [], processedHosts := [1], currentBarrier := 10 }
    rfl (by decide)
    (threadHosts_registered_of_run tcZero staleProcessedCalls staleProcessedPolicy rfl 7)).2
    ⟨1, by simp, ⟨3, 1⟩, by decide, by decide⟩

/-- C11, as stated, fails for a barrier below the stored one: in
`midRoundPolicy` thread 7 has `currentBarrier = 20`; after `pop(5)` and a
further `pop(5)` its `currentBarrier` is 20, not 5. -/
theorem schedulerpolicy_pop_barrier_stays_counterexample :
    ((schedulerpolicy_pop tcEpoch midRoundPolicy 7 5).bind
        (fun r₁ => (schedulerpolicy_pop tcEpoch r₁.2 7 5).bind
          (fun r₂ => (r₂.2.threadToThreadDataMap 7).map
            (fun tdata => tdata.currentBarrier)))) = some 20 ∧
    (20 : SimulationTime) ≠ 5 := by
  decide

/-- C11, amended: let a thread with a ThreadState call `pop(B)`, then let any
pushes happen, and let it call `pop(B)` again. After the first pop
`currentBarrier` is the larger of its old value and `B` (so it is `B` when `B`
is not below the old value), the second pop makes no round transition, keeps
`currentBarrier`, and only moves a prefix of `unprocessedHosts` to the tail of
`processedHosts`; no host moves back. If the first pop returned no event, the
second returns no event and leaves the whole policy unchanged. -/
theorem schedulerpolicy_pop_no_retransition (tc : TimeConstants)
    (policy p₁ p₂ : SchedulerPolicy) (self : Thread) (B : SimulationTime)
    (ev₁ : Option Event) (mid : List Call) (tdata : HostSingleThreadData)
    (ht : policy.threadToThreadDataMap self = some tdata)
    (h1 : schedulerpolicy_pop tc policy self B = some (ev₁, p₁))
    (hmid : applyCalls tc p₁ mid = some p₂)
    (hpush : ∀ c ∈ mid, Call.isPush c = true) :
    ∃ td₁, p₁.threadToThreadDataMap self = some td₁ ∧
      p₂.threadToThreadDataMap self = some td₁ ∧
      td₁.currentBarrier = max tdata.currentBarrier B ∧
      (tdata.currentBarrier ≤ B → td₁.currentBarrier = B) ∧
      roundTransition td₁ B = td₁ ∧
      (∀ (ev₂ : Option Event) (p₃ : SchedulerPolicy),
        schedulerpolicy_pop tc p₂ self B = some (ev₂, p₃) →
        ∃ td₃ pre, p₃.threadToThreadDataMap self = some td₃ ∧
          td₃.currentBarrier = td₁.currentBarrier ∧
          td₁.unprocessedHosts = pre ++ td₃.unprocessedHosts ∧
          td₃.processedHosts = td₁.processedHosts ++ pre) ∧
      (ev₁ = none → schedulerpolicy_pop tc p₂ self B = some (none, p₂)) := by
  obtain ⟨td₁, ht₁, hcb, hnone⟩ : ∃ td₁, p₁.threadToThreadDataMap self = some td₁ ∧
      td₁.currentBarrier = (roundTransition tdata B).currentBarrier ∧
      (ev₁ = none → td₁.unprocessedHosts = []) := by
    obtain ⟨pre, rest, _, hnone, hthreads⟩ :=
      schedulerpolicy_pop_fifos tc policy p₁ self B tdata ev₁ ht h1
    exact ⟨{ roundTransition tdata B with
        unprocessedHosts := rest
        processedHosts := (roundTransition tdata B).processedHosts ++ pre },
      by rw [hthreads]; simp, rfl, hnone⟩
  have hp₂ : p₂.threadToThreadDataMap = p₁.threadToThreadDataMap :=
    threads_applyCalls_of_pushes tc mid p₁ p₂ hmid hpush
  have ht₂ : p₂.threadToThreadDataMap self = some td₁ := by rw [hp₂]; exact ht₁
  have hmax : td₁.currentBarrier = max tdata.currentBarrier B :=
    hcb.trans (currentBarrier_roundTransition tdata B)
  have hle : B ≤ td₁.currentBarrier := by
    rw [hcb]; exact le_currentBarrier_roundTransition tdata B
  refine ⟨td₁, ht₁, ht₂, hmax, fun h => hmax.trans (max_eq_right h),
    roundTransition_of_le td₁ B hle, ?_, ?_⟩
  · intro ev₂ p₃ h2
    obtain ⟨pre', rest', hu', _, hthreads'⟩ :=
      schedulerpolicy_pop_fifos tc p₂ p₃ self B td₁ ev₂ ht₂ h2
    rw [roundTransition_of_le td₁ B hle] at hu' hthreads'
    have ht₃ : p₃.threadToThreadDataMap self =
        some { td₁ with
          unprocessedHosts := rest'
          processedHosts := td₁.processedHosts ++ pre' } := by
      rw [hthreads']; simp
    exact ⟨{ td₁ with
        unprocessedHosts := rest'
        processedHosts := td₁.processedHosts ++ pre' }, pre', ht₃, rfl, hu', rfl⟩
  · intro he
    exact schedulerpolicy_pop_of_unprocessed_nil tc p₂ self B td₁ ht₂ hle (hnone he)

/-- C11, amended, at a concrete execution: after `add_host(1, T7)` the call
`pop(10)` returns no event; then `push(e@3, 1, 1, 0)`; the second `pop(10)`
returns no event and leaves the policy unchanged, with `currentBarrier = 10`. -/
theorem schedulerpolicy_pop_no_retransition_witness :
    ∃ td₁, oneHostAfterPop.threadToThreadDataMap 7 = some td₁ ∧
      oneHostAfterPush.threadToThreadDataMap 7 = some td₁ ∧
      td₁.currentBarrier = max 0 10 ∧
      schedulerpolicy_pop tcZero oneHostAfterPush 7 10 = some (none, oneHostAfterPush) := by
  obtain ⟨td₁, h₁, h₂, h₃, _, _, _, h₇⟩ :=
    schedulerpolicy_pop_no_retransition tcZero oneHostPolicy oneHostAfterPop oneHostAfterPush
      7 10 none [.push ⟨3, 1⟩ 1 1 0]
      { allHosts := none, unprocessedHosts := [1], processedHosts := [], currentBarrier := 0 }
      rfl rfl rfl (by decide)
  exact ⟨td₁, h₁, h₂, h₃, h₇ rfl⟩

/-- C12: take an execution from `schedulerpolicy_new` that adds each host at
most once, and in it a round of thread `self`: a call `first` (the pop that
makes the round transition, or any other call) followed by calls `rest` during
which no pop of `self` makes a round transition. The hosts moved from the head
of `unprocessedHosts` to `processedHosts` during the round are pairwise
distinct, so every host is moved at most once; they form the tail of
`processedHosts` at the end of the round. A pop without round transition only
removes a prefix of `unprocessedHosts` and appends it to `processedHosts`. -/
theorem hosts_moved_once_per_round (tc : TimeConstants) (self : Thread)
    (before : List Call) (first : Call) (rest : List Call) (p₁ p₂ p₃ : SchedulerPolicy)
    (h1 : applyCalls tc schedulerpolicy_new before = some p₁)
    (h2 : applyCall tc p₁ first = some p₂)
    (h3 : applyCalls tc p₂ rest = some p₃)
    (hnd : (allAddedHosts (before ++ first :: rest)).Nodup)
    (hnt : noRoundTransition tc self p₂ rest = true) :
    (movedHosts tc self p₁ (first :: rest)).Nodup ∧
    (∀ host, (movedHosts tc self p₁ (first :: rest)).count host ≤ 1) ∧
    (∃ X, processedOf p₃ self = X ++ movedHosts tc self p₁ (first :: rest)) ∧
    (∀ (policy policy' : SchedulerPolicy) (tdata : HostSingleThreadData)
        (barrier : SimulationTime) (ev : Option Event),
      policy.threadToThreadDataMap self = some tdata →
      barrier ≤ tdata.currentBarrier →
      schedulerpolicy_pop tc policy self barrier = some (ev, policy') →
      ∃ tdata' pre, policy'.threadToThreadDataMap self = some tdata' ∧
        tdata.unprocessedHosts = pre ++ tdata'.unprocessedHosts ∧
        tdata'.processedHosts = tdata.processedHosts ++ pre) := by
  have hrun : applyCalls tc schedulerpolicy_new (before ++ first :: rest) = some p₃ := by
    rw [applyCalls_append, h1]
    simp only [Option.some_bind, applyCalls, h2]
    exact h3
  have hperm := threadHosts_applyCalls tc _ schedulerpolicy_new p₃ hrun self
  rw [threadHosts_new, List.nil_append] at hperm
  have hndT : (threadHosts p₃ self).Nodup :=
    hperm.nodup_iff.2 ((addedHosts_sublist self _).nodup hnd)
  have hndP : (processedOf p₃ self).Nodup :=
    (processedOf_sublist_threadHosts p₃ self).nodup hndT
  obtain ⟨X, hX, _⟩ := processedOf_applyCall tc self p₁ p₂ first h2
  have hP : processedOf p₃ self = X ++ movedHosts tc self p₁ (first :: rest) := by
    rw [processedOf_applyCalls tc self rest p₂ p₃ h3 hnt, hX,
      movedHosts_cons tc self p₁ p₂ first rest h2, List.append_assoc]
  have hndM : (movedHosts tc self p₁ (first :: rest)).Nodup := by
    rw [hP] at hndP
    exact (List.nodup_append.1 hndP).2.1
  refine ⟨hndM, fun host => List.nodup_iff_count_le_one.1 hndM host, ⟨X, hP⟩, ?_⟩
  intro policy policy' tdata barrier ev ht hle hpop
  obtain ⟨pre, rest', hu, _, hthreads⟩ :=
    schedulerpolicy_pop_fifos tc policy policy' self barrier tdata ev ht hpop
  rw [roundTransition_of_le tdata barrier hle] at hu hthreads
  exact ⟨{ tdata with
      unprocessedHosts := rest'
      processedHosts := tdata.processedHosts ++ pre }, pre,
    by rw [hthreads]; simp, hu, rfl⟩

/-- C12 at a concrete round: thread 7 owns hosts 1, 2, 3; the round with
barrier 5 is opened by `pop(5)` and continues with `pop(5); push(e@2, 1, 1, 0);
pop(5)`. The hosts moved to `processed` during the round are 1, 2, 3, each
once; the event pushed to host 1 after it was moved does not bring it back. -/
theorem hosts_moved_once_per_round_witness :
    movedHosts tcZero 7 roundStartPolicy (.pop 7 5 :: roundRestCalls) = [1, 2, 3] ∧
    (movedHosts tcZero 7 roundStartPolicy (.pop 7 5 :: roundRestCalls)).Nodup :=
  ⟨by decide,
    (hosts_moved_once_per_round tcZero 7 roundStartCalls (.pop 7 5) roundRestCalls
      roundStartPolicy roundOpenedPolicy roundEndPolicy rfl rfl rfl (by decide)
      (by decide)).1⟩

/-- C20: take an execution from `schedulerpolicy_new` in which every round
transition of thread `self` happens with `unprocessedHosts` empty (the barrier
is raised only after pop returned no event) or with `processedHosts` empty (the
first pop). In the state it reaches, `processedHosts ++ unprocessedHosts` of the
thread is the `add_host` order of its hosts, and a next round opened under the
same discipline scans the hosts in that order. Whatever the discipline, a round
transition leaves `unprocessedHosts ++ processedHosts` as the scan order, a
cyclic rotation of `processedHosts ++ unprocessedHosts`. -/
theorem service_order_stable (tc : TimeConstants) (self : Thread) (calls : List Call)
    (policy : SchedulerPolicy)
    (hrun : applyCalls tc schedulerpolicy_new calls = some policy)
    (hd : disciplined tc self schedulerpolicy_new calls = true) :
    (∀ tdata, policy.threadToThreadDataMap self = some tdata →
      tdata.processedHosts ++ tdata.unprocessedHosts = addedHosts self calls) ∧
    (∀ (tdata : HostSingleThreadData) (barrier : SimulationTime),
      policy.threadToThreadDataMap self = some tdata → tdata.currentBarrier < barrier →
      (tdata.unprocessedHosts = [] ∨ tdata.processedHosts = []) →
      (roundTransition tdata barrier).unprocessedHosts = addedHosts self calls ∧
      (roundTransition tdata barrier).processedHosts = []) ∧
    (∀ (tdata : HostSingleThreadData) (barrier : SimulationTime),
      tdata.currentBarrier < barrier →
      (roundTransition tdata barrier).unprocessedHosts =
        tdata.unprocessedHosts ++ tdata.processedHosts ∧
      (roundTransition tdata barrier).processedHosts = [] ∧
      List.IsRotated (tdata.processedHosts ++ tdata.unprocessedHosts)
        (tdata.unprocessedHosts ++ tdata.processedHosts)) := by
  have horder : ∀ tdata, policy.threadToThreadDataMap self = some tdata →
      tdata.processedHosts ++ tdata.unprocessedHosts = addedHosts self calls := by
    intro tdata ht
    have h := serviceOrder_applyCalls tc self calls schedulerpolicy_new policy hrun hd
    simpa [serviceOrder, ht, schedulerpolicy_new] using h
  refine ⟨horder, ?_, ?_⟩
  · intro tdata barrier ht hlt hclean
    have h := horder tdata ht
    rw [roundTransition_of_lt tdata barrier hlt]
    refine ⟨?_, rfl⟩
    rcases hclean with hu | hp
    · simpa [hu] using h
    · simpa [hp] using h
  · intro tdata barrier hlt
    rw [roundTransition_of_lt tdata barrier hlt]
    exact ⟨rfl, rfl, List.isRotated_append⟩

/-- C20 at a concrete execution: thread 7 with hosts 1 and 2 runs the round
with barrier 5 until pop returns no event and then the round with barrier 10;
at the end `processed ++ unprocessed` is `[1, 2]`, the `add_host` order. -/
theorem service_order_stable_witness :
    twoRoundPolicy.threadToThreadDataMap 7 =
      some { allHosts := none, unprocessedHosts := [], processedHosts := [1, 2],
             currentBarrier := 10 } ∧
    ([1, 2] : List Host) ++ [] = addedHosts 7 twoRoundCalls :=
  ⟨rfl,
    (service_order_stable tcZero 7 twoRoundCalls twoRoundPolicy rfl (by decide)).1
      { allHosts := none, unprocessedHosts := [], processedHosts := [1, 2],
        currentBarrier := 10 } rfl⟩

end Shadow
